import Mathlib

/-!
Verification of the tutorial-corpus build scripts
(`epub_converter_pandoc.py` and `extract_headings.py`).

Strings are modelled as `List Char`.  The Python regex character classes
`\w` and `\s` are modelled at ASCII granularity (the corpus operates on
ASCII identifiers, filenames and headings; the only non-ASCII characters
that occur — decorative emoji — are neither word nor space characters in
Python, and are classified identically here).  `str.lower()` is modelled
by `Char.toLower` (ASCII case mapping).
-/

/-- Strings as lists of characters. -/
abbrev Str := List Char

/-- Coerce a Lean string literal to the `Str` model. -/
def str (s : String) : Str := s.toList

/-- Python `\w` (ASCII): letters, digits, underscore. -/
def isWordChar (c : Char) : Bool := c.isAlphanum || c = '_'

/-- Python `\s` (ASCII): space, tab, newline, carriage return, vertical tab, form feed. -/
def isSpaceChar (c : Char) : Bool :=
  c = ' ' || c = '\t' || c = '\n' || c = '\r' || c = '\x0b' || c = '\x0c'

/-- One pass of `re.sub(r'[class]+', r, s)` where `class` is a character class:
each maximal run of characters satisfying `p` is replaced by the single
character `r`.  The flag records whether we are inside a run already. -/
def subRunsAux (p : Char → Bool) (r : Char) : Bool → Str → Str
  | _, [] => []
  | inRun, c :: cs =>
    if p c then
      if inRun then subRunsAux p r true cs else r :: subRunsAux p r true cs
    else c :: subRunsAux p r false cs

/-- `re.sub` replacing each maximal run of `p`-characters by `r`. -/
def subRuns (p : Char → Bool) (r : Char) (s : Str) : Str := subRunsAux p r false s

/-- Python `s.strip(r)` for a single strip character `r`. -/
def stripChar (r : Char) (s : Str) : Str :=
  ((s.dropWhile (· = r)).reverse.dropWhile (· = r)).reverse

/-- Characters kept by the first substitution of `create_pandoc_heading_id`
(`re.sub(r'[^\w\s\-.:]+', '', text)` deletes everything else). -/
def keepChar (c : Char) : Bool :=
  isWordChar c || isSpaceChar c || c = '-' || c = '.' || c = ':'

/-- Characters rewritten to hyphens by `re.sub(r'[\s:]+', '-', text)`. -/
def spaceColon (c : Char) : Bool := isSpaceChar c || c = ':'

/-- `PandocEPUBConverter.create_pandoc_heading_id`: lowercase, drop characters
outside `[\w\s\-.:]`, replace runs of whitespace/colons by a hyphen, collapse
hyphen runs, strip edge hyphens. -/
def create_pandoc_heading_id (text : Str) : Str :=
  let t1 := text.map Char.toLower
  let t2 := t1.filter keepChar
  let t3 := subRuns spaceColon '-' t2
  let t4 := subRuns (fun c => c = '-') '-' t3
  stripChar '-' t4

/-- The formula of spec §8 bullet 1 for simple heading texts: lowercase, each
run of spaces becomes one hyphen, edge hyphens trimmed. -/
def simpleAnchorSpec (text : Str) : Str :=
  stripChar '-' (subRuns (fun c => c = ' ') '-' (text.map Char.toLower))

/-! ### Character-level lemmas -/

theorem char_toNat_ofNat (n : Nat) (h : n.isValidChar) : (Char.ofNat n).toNat = n := by
  simp only [Char.ofNat, dif_pos h, Char.ofNatAux, Char.toNat]
  simp [UInt32.ofNat', UInt32.toNat]

theorem toLower_toLower (c : Char) : Char.toLower (Char.toLower c) = Char.toLower c := by
  unfold Char.toLower
  by_cases h : c.toNat ≥ 65 ∧ c.toNat ≤ 90
  · rw [if_pos h]
    have hv : (c.toNat + 32).isValidChar := Or.inl (by omega)
    have ht : (Char.ofNat (c.toNat + 32)).toNat = c.toNat + 32 := char_toNat_ofNat _ hv
    rw [if_neg (by rw [ht]; omega)]
  · rw [if_neg h, if_neg h]

/-! ### `subRuns` lemmas -/

theorem subRunsAux_eq_self (p : Char → Bool) (r : Char) (b : Bool) :
    ∀ l : Str, (∀ c ∈ l, p c = false) → subRunsAux p r b l = l := by
  intro l
  induction l generalizing b with
  | nil => intro _; rfl
  | cons c cs ih =>
    intro h
    have hc : p c = false := h c (by simp)
    simp only [subRunsAux, hc]
    simp only [Bool.false_eq_true, if_false, List.cons.injEq, true_and]
    exact ih false (fun x hx => h x (by simp [hx]))

theorem mem_subRunsAux (p : Char → Bool) (r : Char) (b : Bool) :
    ∀ l : Str, ∀ c ∈ subRunsAux p r b l, c = r ∨ (c ∈ l ∧ p c = false) := by
  intro l
  induction l generalizing b with
  | nil => intro c hc; simp [subRunsAux] at hc
  | cons a as ih =>
    intro c hc
    simp only [subRunsAux] at hc
    by_cases hp : p a
    · rw [if_pos hp] at hc
      cases b with
      | true =>
        simp only [if_true] at hc
        rcases ih true c hc with h | ⟨h1, h2⟩
        · exact Or.inl h
        · exact Or.inr ⟨by simp [h1], h2⟩
      | false =>
        simp only [Bool.false_eq_true, if_false, List.mem_cons] at hc
        rcases hc with h | h
        · exact Or.inl h
        · rcases ih true c h with h' | ⟨h1, h2⟩
          · exact Or.inl h'
          · exact Or.inr ⟨by simp [h1], h2⟩
    · rw [if_neg hp] at hc
      rcases List.mem_cons.mp hc with h | h
      · subst h
        exact Or.inr ⟨by simp, by simpa using hp⟩
      · rcases ih false c h with h' | ⟨h1, h2⟩
        · exact Or.inl h'
        · exact Or.inr ⟨by simp [h1], h2⟩

theorem head?_subRunsAux_true (p : Char → Bool) (r : Char) :
    ∀ l : Str, ∀ x, (subRunsAux p r true l).head? = some x → p x = false ∧ x ∈ l := by
  intro l
  induction l with
  | nil => intro x hx; simp [subRunsAux] at hx
  | cons a as ih =>
    intro x hx
    by_cases hp : p a
    · simp only [subRunsAux, hp, if_true] at hx
      obtain ⟨h1, h2⟩ := ih x hx
      exact ⟨h1, by simp [h2]⟩
    · simp only [subRunsAux, hp, Bool.false_eq_true, if_false, List.head?_cons,
        Option.some.injEq] at hx
      subst hx
      exact ⟨by simpa using hp, by simp⟩

/-- Adjacent characters in a `subRuns _ '-'` output are never both hyphens,
provided no copied (non-run) character is a hyphen. -/
theorem chain'_subRunsAux (p : Char → Bool) (b : Bool) :
    ∀ l : Str, (∀ c ∈ l, p c = false → c ≠ '-') →
    List.Chain' (fun a b => ¬(a = '-' ∧ b = '-')) (subRunsAux p '-' b l) := by
  intro l
  induction l generalizing b with
  | nil => intro _; simp [subRunsAux]
  | cons a as ih =>
    intro h
    have htail : ∀ c ∈ as, p c = false → c ≠ '-' := fun c hc => h c (by simp [hc])
    simp only [subRunsAux]
    by_cases hp : p a
    · rw [if_pos hp]
      cases b with
      | true => simpa using ih true htail
      | false =>
        simp only [Bool.false_eq_true, if_false]
        rw [List.chain'_cons']
        refine ⟨?_, by simpa using ih true htail⟩
        intro y hy
        obtain ⟨hy', hymem⟩ := head?_subRunsAux_true p '-' as y hy
        intro ⟨_, hy2⟩
        exact htail y hymem hy' hy2
    · rw [if_neg hp]
      rw [List.chain'_cons']
      refine ⟨?_, by simpa using ih false htail⟩
      intro y _
      intro ⟨ha, _⟩
      exact h a (by simp) (by simpa using hp) ha

theorem subRunsAux_true_eq_false_of_head (p : Char → Bool) (r : Char) (l : Str)
    (h : ∀ x, l.head? = some x → p x = false) :
    subRunsAux p r true l = subRunsAux p r false l := by
  cases l with
  | nil => rfl
  | cons a as =>
    have ha : p a = false := h a rfl
    simp [subRunsAux, ha]

/-- Collapsing hyphen runs is the identity on hyphen-run-free strings. -/
theorem subRuns_collapse_eq_self :
    ∀ l : Str, List.Chain' (fun a b => ¬(a = '-' ∧ b = '-')) l →
    subRuns (fun c => c = '-') '-' l = l := by
  intro l
  induction l with
  | nil => intro _; rfl
  | cons a as ih =>
    intro h
    rw [List.chain'_cons'] at h
    obtain ⟨hhead, htail⟩ := h
    simp only [subRuns, subRunsAux]
    by_cases ha : a = '-'
    · rw [if_pos (by simp [ha])]
      simp only [Bool.false_eq_true, if_false, List.cons.injEq]
      refine ⟨ha.symm, ?_⟩
      rw [subRunsAux_true_eq_false_of_head _ _ as ?_]
      · exact ih htail
      · intro x hx
        have := hhead x hx
        simp only [decide_eq_false_iff_not]
        intro hx'
        exact this ⟨ha, hx'⟩
    · rw [if_neg (by simp [ha])]
      exact congrArg (a :: ·) (ih htail)

/-! ### More character-level lemmas -/

theorem char_eq_iff_toNat (c d : Char) : c = d ↔ c.toNat = d.toNat := by
  constructor
  · intro h; rw [h]
  · intro h; exact Char.ext (UInt32.ext h)

theorem isUpper_iff (c : Char) : c.isUpper = true ↔ 65 ≤ c.toNat ∧ c.toNat ≤ 90 := by
  simp only [Char.isUpper, Bool.and_eq_true, decide_eq_true_eq, ge_iff_le]
  exact Iff.rfl

theorem isLower_iff (c : Char) : c.isLower = true ↔ 97 ≤ c.toNat ∧ c.toNat ≤ 122 := by
  simp only [Char.isLower, Bool.and_eq_true, decide_eq_true_eq, ge_iff_le]
  exact Iff.rfl

theorem isDigit_iff (c : Char) : c.isDigit = true ↔ 48 ≤ c.toNat ∧ c.toNat ≤ 57 := by
  simp only [Char.isDigit, Bool.and_eq_true, decide_eq_true_eq, ge_iff_le]
  exact Iff.rfl

theorem toNat_toLower (c : Char) :
    (Char.toLower c).toNat = if 65 ≤ c.toNat ∧ c.toNat ≤ 90 then c.toNat + 32 else c.toNat := by
  unfold Char.toLower
  by_cases h : c.toNat ≥ 65 ∧ c.toNat ≤ 90
  · rw [if_pos h, if_pos h]
    exact char_toNat_ofNat _ (Or.inl (by omega))
  · rw [if_neg h, if_neg h]

/-! ### `stripChar` lemmas -/

theorem head?_dropWhile (p : Char → Bool) :
    ∀ l : Str, ∀ x, ((l.dropWhile p).head? = some x) → p x = false := by
  intro l
  induction l with
  | nil => intro x hx; simp at hx
  | cons a as ih =>
    intro x hx
    by_cases hp : p a
    · rw [List.dropWhile_cons_of_pos hp] at hx
      exact ih x hx
    · rw [List.dropWhile_cons_of_neg hp] at hx
      simp only [List.head?_cons, Option.some.injEq] at hx
      subst hx
      simpa using hp

theorem dropWhile_eq_self_of_head (p : Char → Bool) (l : Str)
    (h : ∀ x, l.head? = some x → p x = false) : l.dropWhile p = l := by
  cases l with
  | nil => rfl
  | cons a as => exact List.dropWhile_cons_of_neg (by simp [h a rfl])

theorem stripChar_within (r : Char) (s : Str) : stripChar r s <:+: s := by
  unfold stripChar
  obtain ⟨t, ht⟩ := @List.dropWhile_suffix _ ((s.dropWhile (· = r)).reverse) (· = r)
  obtain ⟨u, hu⟩ := @List.dropWhile_suffix _ s (· = r)
  refine ⟨u, t.reverse, ?_⟩
  have hX : s.dropWhile (· = r) =
      ((s.dropWhile (· = r)).reverse.dropWhile (· = r)).reverse ++ t.reverse := by
    have h2 := congrArg List.reverse ht
    simpa using h2.symm
  symm
  calc s = u ++ s.dropWhile (· = r) := hu.symm
  _ = u ++ (((s.dropWhile (· = r)).reverse.dropWhile (· = r)).reverse ++ t.reverse) := by
        rw [← hX]
  _ = u ++ ((s.dropWhile (· = r)).reverse.dropWhile (· = r)).reverse ++ t.reverse := by
        rw [List.append_assoc]

theorem head?_stripChar (r : Char) (s : Str) :
    ∀ x, (stripChar r s).head? = some x → x ≠ r := by
  intro x hx
  unfold stripChar at hx
  rw [List.head?_reverse] at hx
  obtain ⟨t, ht⟩ := @List.dropWhile_suffix _ ((s.dropWhile (· = r)).reverse) (· = r)
  have hlast : ((s.dropWhile (· = r)).reverse).getLast? = some x := by
    rw [← ht, List.getLast?_append, hx]
    rfl
  rw [List.getLast?_reverse] at hlast
  have := head?_dropWhile (· = r) s x hlast
  simpa using this

theorem getLast?_stripChar (r : Char) (s : Str) :
    ∀ x, (stripChar r s).getLast? = some x → x ≠ r := by
  intro x hx
  unfold stripChar at hx
  rw [List.getLast?_reverse] at hx
  have := head?_dropWhile (· = r) (s.dropWhile (· = r)).reverse x hx
  simpa using this

theorem stripChar_eq_self (r : Char) (s : Str)
    (hh : ∀ x, s.head? = some x → x ≠ r) (hl : ∀ x, s.getLast? = some x → x ≠ r) :
    stripChar r s = s := by
  unfold stripChar
  rw [dropWhile_eq_self_of_head (· = r) s (fun x hx => by simp [hh x hx])]
  rw [dropWhile_eq_self_of_head (· = r) s.reverse (fun x hx => by
    rw [List.head?_reverse] at hx
    simp [hl x hx])]
  simp

/-! ### Fixed points of the Anchor Deriver -/

/-- The shape invariant of `create_pandoc_heading_id` outputs.  A string with
this shape is left unchanged by the algorithm. -/
def GoodAnchor (l : Str) : Prop :=
  (∀ c ∈ l, keepChar c = true ∧ Char.toLower c = c ∧ spaceColon c = false)
  ∧ List.Chain' (fun a b => ¬(a = '-' ∧ b = '-')) l
  ∧ (∀ x, l.head? = some x → x ≠ '-')
  ∧ (∀ x, l.getLast? = some x → x ≠ '-')

theorem goodAnchor_create_pandoc_heading_id (x : Str) :
    GoodAnchor (create_pandoc_heading_id x) := by
  show GoodAnchor (stripChar '-' (subRuns (fun c => c = '-') '-'
    (subRuns spaceColon '-' ((x.map Char.toLower).filter keepChar))))
  set t2 := (x.map Char.toLower).filter keepChar with ht2
  set t3 := subRuns spaceColon '-' t2 with ht3
  set t4 := subRuns (fun c => c = '-') '-' t3 with ht4
  have mem4 : ∀ c ∈ stripChar '-' t4,
      keepChar c = true ∧ Char.toLower c = c ∧ spaceColon c = false := by
    intro c hc
    have hc4 : c ∈ t4 := ((stripChar_within '-' t4).sublist).mem hc
    rcases mem_subRunsAux _ '-' false t3 c hc4 with h | ⟨hc3, _⟩
    · subst h
      refine ⟨by decide, by decide, by decide⟩
    · rcases mem_subRunsAux _ '-' false t2 c hc3 with h | ⟨hc2, hsc⟩
      · subst h
        refine ⟨by decide, by decide, by decide⟩
      · rw [ht2, List.mem_filter] at hc2
        obtain ⟨hc1, hk⟩ := hc2
        rw [List.mem_map] at hc1
        obtain ⟨a, _, ha⟩ := hc1
        exact ⟨hk, by rw [← ha]; exact toLower_toLower a, hsc⟩
  refine ⟨mem4, ?_, head?_stripChar '-' t4, getLast?_stripChar '-' t4⟩
  have hch : List.Chain' (fun a b => ¬(a = '-' ∧ b = '-')) t4 := by
    rw [ht4]
    exact chain'_subRunsAux _ false t3 (fun c _ h => by simpa using h)
  exact hch.infix (stripChar_within '-' t4)

theorem create_pandoc_heading_id_eq_self (l : Str) (h : GoodAnchor l) :
    create_pandoc_heading_id l = l := by
  obtain ⟨hmem, hch, hh, hl⟩ := h
  show stripChar '-' (subRuns (fun c => c = '-') '-'
    (subRuns spaceColon '-' ((l.map Char.toLower).filter keepChar))) = l
  have h1 : l.map Char.toLower = l := by
    rw [show l.map Char.toLower = l.map id from
      List.map_congr_left (fun a ha => (hmem a ha).2.1), List.map_id]
  rw [h1]
  rw [List.filter_eq_self.mpr (fun a ha => (hmem a ha).1)]
  rw [show subRuns spaceColon '-' l = l from
    subRunsAux_eq_self spaceColon '-' false l (fun c hc => (hmem c hc).2.2)]
  rw [subRuns_collapse_eq_self l hch]
  exact stripChar_eq_self '-' l hh hl

theorem subRunsAux_congr (p q : Char → Bool) (r : Char) (b : Bool) :
    ∀ l : Str, (∀ c ∈ l, p c = q c) → subRunsAux p r b l = subRunsAux q r b l := by
  intro l
  induction l generalizing b with
  | nil => intro _; rfl
  | cons a as ih =>
    intro h
    have ha : p a = q a := h a (by simp)
    have htail : ∀ c ∈ as, p c = q c := fun c hc => h c (by simp [hc])
    by_cases hq : q a
    · have hp : p a = true := by rw [ha]; exact hq
      cases b with
      | true =>
        simp only [subRunsAux, hp, hq, if_true]
        exact ih true htail
      | false =>
        simp only [subRunsAux, hp, hq, if_true]
        exact congrArg (r :: ·) (ih true htail)
    · have hq' : q a = false := by simpa using hq
      have hp : p a = false := by rw [ha]; exact hq'
      simp only [subRunsAux, hp, hq', Bool.false_eq_true, if_false]
      exact congrArg (a :: ·) (ih false htail)

theorem simpleChar_toLower_facts (c : Char)
    (h : c.isAlpha = true ∨ c.isDigit = true ∨ c = ' ') :
    keepChar (Char.toLower c) = true
    ∧ spaceColon (Char.toLower c) = decide (Char.toLower c = ' ')
    ∧ Char.toLower c ≠ '-' := by
  have hn : (97 ≤ (Char.toLower c).toNat ∧ (Char.toLower c).toNat ≤ 122)
      ∨ (48 ≤ (Char.toLower c).toNat ∧ (Char.toLower c).toNat ≤ 57)
      ∨ (Char.toLower c).toNat = 32 := by
    have hm := toNat_toLower c
    have hc : (65 ≤ c.toNat ∧ c.toNat ≤ 90) ∨ (97 ≤ c.toNat ∧ c.toNat ≤ 122)
        ∨ (48 ≤ c.toNat ∧ c.toNat ≤ 57) ∨ c.toNat = 32 := by
      rcases h with h | h | h
      · simp only [Char.isAlpha, Bool.or_eq_true] at h
        rcases h with h' | h'
        · exact Or.inl ((isUpper_iff c).mp h')
        · exact Or.inr (Or.inl ((isLower_iff c).mp h'))
      · exact Or.inr (Or.inr (Or.inl ((isDigit_iff c).mp h)))
      · refine Or.inr (Or.inr (Or.inr ?_))
        rw [h]
        decide
    rw [hm]
    split_ifs with hif <;> omega
  set y := Char.toLower c with hy
  have hy32 : (' ' : Char).toNat = 32 := by decide
  rcases hn with hr | hr | hr
  · refine ⟨?_, ?_, ?_⟩
    · have : y.isLower = true := (isLower_iff y).mpr hr
      simp [keepChar, isWordChar, Char.isAlphanum, Char.isAlpha, this]
    · have d1 : decide (y = ' ') = false :=
        decide_eq_false (fun he => by rw [char_eq_iff_toNat, hy32] at he; omega)
      have d2 : decide (y = '\t') = false :=
        decide_eq_false (fun he => by
          rw [char_eq_iff_toNat, show ('\t' : Char).toNat = 9 from by decide] at he; omega)
      have d3 : decide (y = '\n') = false :=
        decide_eq_false (fun he => by
          rw [char_eq_iff_toNat, show ('\n' : Char).toNat = 10 from by decide] at he; omega)
      have d4 : decide (y = '\r') = false :=
        decide_eq_false (fun he => by
          rw [char_eq_iff_toNat, show ('\r' : Char).toNat = 13 from by decide] at he; omega)
      have d5 : decide (y = '\x0b') = false :=
        decide_eq_false (fun he => by
          rw [char_eq_iff_toNat, show ('\x0b' : Char).toNat = 11 from by decide] at he; omega)
      have d6 : decide (y = '\x0c') = false :=
        decide_eq_false (fun he => by
          rw [char_eq_iff_toNat, show ('\x0c' : Char).toNat = 12 from by decide] at he; omega)
      have d7 : decide (y = ':') = false :=
        decide_eq_false (fun he => by
          rw [char_eq_iff_toNat, show (':' : Char).toNat = 58 from by decide] at he; omega)
      simp [spaceColon, isSpaceChar, d1, d2, d3, d4, d5, d6, d7]
    · intro he
      rw [char_eq_iff_toNat, show ('-' : Char).toNat = 45 from by decide] at he
      omega
  · refine ⟨?_, ?_, ?_⟩
    · have : y.isDigit = true := (isDigit_iff y).mpr hr
      simp [keepChar, isWordChar, Char.isAlphanum, this]
    · have d1 : decide (y = ' ') = false :=
        decide_eq_false (fun he => by rw [char_eq_iff_toNat, hy32] at he; omega)
      have d2 : decide (y = '\t') = false :=
        decide_eq_false (fun he => by
          rw [char_eq_iff_toNat, show ('\t' : Char).toNat = 9 from by decide] at he; omega)
      have d3 : decide (y = '\n') = false :=
        decide_eq_false (fun he => by
          rw [char_eq_iff_toNat, show ('\n' : Char).toNat = 10 from by decide] at he; omega)
      have d4 : decide (y = '\r') = false :=
        decide_eq_false (fun he => by
          rw [char_eq_iff_toNat, show ('\r' : Char).toNat = 13 from by decide] at he; omega)
      have d5 : decide (y = '\x0b') = false :=
        decide_eq_false (fun he => by
          rw [char_eq_iff_toNat, show ('\x0b' : Char).toNat = 11 from by decide] at he; omega)
      have d6 : decide (y = '\x0c') = false :=
        decide_eq_false (fun he => by
          rw [char_eq_iff_toNat, show ('\x0c' : Char).toNat = 12 from by decide] at he; omega)
      have d7 : decide (y = ':') = false :=
        decide_eq_false (fun he => by
          rw [char_eq_iff_toNat, show (':' : Char).toNat = 58 from by decide] at he; omega)
      simp [spaceColon, isSpaceChar, d1, d2, d3, d4, d5, d6, d7]
    · intro he
      rw [char_eq_iff_toNat, show ('-' : Char).toNat = 45 from by decide] at he
      omega
  · have hsp : y = ' ' := by
      rw [char_eq_iff_toNat, hy32]
      exact hr
    rw [hsp]
    refine ⟨by decide, by decide, by decide⟩

/-- C7: on heading texts made only of letters, digits and spaces,
`create_pandoc_heading_id` is exactly "lowercase, runs of spaces to one
hyphen, trim edge hyphens"; and the empty string maps to the empty string. -/
theorem anchor_deriver_simple_texts :
    (∀ s : Str, (∀ c ∈ s, c.isAlpha = true ∨ c.isDigit = true ∨ c = ' ') →
      create_pandoc_heading_id s = simpleAnchorSpec s)
    ∧ create_pandoc_heading_id (str "") = str "" := by
  refine ⟨?_, rfl⟩
  intro s hs
  have hfacts : ∀ y ∈ s.map Char.toLower,
      keepChar y = true ∧ spaceColon y = decide (y = ' ') ∧ y ≠ '-' := by
    intro y hy
    rw [List.mem_map] at hy
    obtain ⟨a, ha, rfl⟩ := hy
    exact simpleChar_toLower_facts a (hs a ha)
  show stripChar '-' (subRuns (fun c => c = '-') '-'
    (subRuns spaceColon '-' ((s.map Char.toLower).filter keepChar))) = simpleAnchorSpec s
  unfold simpleAnchorSpec
  rw [List.filter_eq_self.mpr (fun a ha => (hfacts a ha).1)]
  rw [show subRuns spaceColon '-' (s.map Char.toLower)
      = subRuns (fun c => c = ' ') '-' (s.map Char.toLower) from
    subRunsAux_congr spaceColon _ '-' false _ (fun c hc => (hfacts c hc).2.1)]
  have hch : List.Chain' (fun a b => ¬(a = '-' ∧ b = '-'))
      (subRuns (fun c => c = ' ') '-' (s.map Char.toLower)) :=
    chain'_subRunsAux _ false _ (fun c hc _ => (hfacts c hc).2.2)
  rw [subRuns_collapse_eq_self _ hch]

/-- Witness for C7 at the concrete heading `Foo Bar 22`. -/
theorem anchor_deriver_simple_texts_witness :
    (∀ c ∈ str "Foo Bar 22", c.isAlpha = true ∨ c.isDigit = true ∨ c = ' ')
    ∧ create_pandoc_heading_id (str "Foo Bar 22") = simpleAnchorSpec (str "Foo Bar 22") :=
  ⟨by decide, anchor_deriver_simple_texts.1 (str "Foo Bar 22") (by decide)⟩

/-- C10: anchor derivation is idempotent: deriving an anchor from an
already-derived anchor returns it unchanged. -/
theorem anchor_deriver_idempotent (s : Str) :
    create_pandoc_heading_id (create_pandoc_heading_id s) = create_pandoc_heading_id s :=
  create_pandoc_heading_id_eq_self _ (goodAnchor_create_pandoc_heading_id s)

/-! ### Association lists (Python `dict` lookups over string keys) -/

/-- Dictionary lookup, first matching key. -/
def alookup {κ ν : Type} [DecidableEq κ] (k : κ) : List (κ × ν) → Option ν
  | [] => none
  | (k', v) :: rest => if k = k' then some v else alookup k rest

/-- Python `d[k] = v`: overwrite if present, else append. -/
def dictInsert {κ ν : Type} [DecidableEq κ] (m : List (κ × ν)) (k : κ) (v : ν) :
    List (κ × ν) :=
  if (alookup k m).isSome then m.map (fun p => if p.1 = k then (k, v) else p)
  else m ++ [(k, v)]

theorem alookup_append {κ ν : Type} [DecidableEq κ] (k : κ) (a b : List (κ × ν)) :
    alookup k (a ++ b) = (alookup k a).orElse (fun _ => alookup k b) := by
  induction a with
  | nil => simp [alookup]
  | cons p rest ih =>
    obtain ⟨k', v⟩ := p
    by_cases h : k = k'
    · simp [alookup, h]
    · simp [alookup, h, ih]

theorem alookup_eq_none {κ ν : Type} [DecidableEq κ] (k : κ) (m : List (κ × ν)) :
    alookup k m = none ↔ k ∉ m.map Prod.fst := by
  induction m with
  | nil => simp [alookup]
  | cons p rest ih =>
    obtain ⟨k', v⟩ := p
    by_cases h : k = k'
    · simp [alookup, h]
    · simp [alookup, h, ih]

theorem alookup_mem {κ ν : Type} [DecidableEq κ] (k : κ) (v : ν) :
    ∀ m : List (κ × ν), alookup k m = some v → (k, v) ∈ m := by
  intro m
  induction m with
  | nil => simp [alookup]
  | cons p rest ih =>
    obtain ⟨k', v'⟩ := p
    intro hv
    by_cases h : k = k'
    · subst h
      rw [show alookup k ((k, v') :: rest) = some v' from by simp [alookup]] at hv
      injection hv with hv
      rw [← hv]
      exact List.mem_cons_self _ _
    · rw [show alookup k ((k', v') :: rest) = alookup k rest from by simp [alookup, h]] at hv
      exact List.mem_cons_of_mem _ (ih hv)

theorem mem_alookup {κ ν : Type} [DecidableEq κ] (k : κ) (v : ν) :
    ∀ m : List (κ × ν), (m.map Prod.fst).Nodup → (k, v) ∈ m → alookup k m = some v := by
  intro m
  induction m with
  | nil => intro _ h; simp at h
  | cons p rest ih =>
    intro hN h
    obtain ⟨k', v'⟩ := p
    simp only [List.map_cons, List.nodup_cons] at hN
    rcases List.mem_cons.mp h with h' | h'
    · injection h' with h1 h2
      subst h1
      subst h2
      simp [alookup]
    · have hk : k ≠ k' := by
        intro he
        subst he
        exact hN.1 (by simpa using List.mem_map_of_mem Prod.fst h')
      rw [show alookup k ((k', v') :: rest) = alookup k rest from by simp [alookup, hk]]
      exact ih hN.2 h'

theorem dictInsert_of_fresh {κ ν : Type} [DecidableEq κ] (m : List (κ × ν)) (k : κ) (v : ν)
    (h : alookup k m = none) : dictInsert m k v = m ++ [(k, v)] := by
  unfold dictInsert
  rw [h]
  rfl

/-! ### Corpus Orderer -/

/-- The loop `for t in existing: if t not in order: order.append(t)`. -/
def addMissing (order : List Str) : List Str → List Str
  | [] => order
  | t :: ts => addMissing (if t ∈ order then order else order ++ [t]) ts

/-- The curated tutorial order of `get_tutorial_order`. -/
def tutorial_order_curated : List Str :=
  [str "data-structures-algorithms-101",
   str "system-design-101",
   str "hashing-the-universal-filing-system",
   str "sorting-creating-order-from-chaos",
   str "heap-data-structures-the-priority-expert",
   str "trie-structures-the-autocomplete-expert",
   str "b-trees",
   str "bloom-filters",
   str "skip-lists-the-probabilistic-search-tree",
   str "union-find-the-social-network-analyzer",
   str "fenwick-trees-the-efficient-summation-machine",
   str "segment-trees-the-range-query-specialist",
   str "adaptive-data-structures",
   str "rope-data-structures-the-string-splicer",
   str "radix-trees-the-compressed-prefix-tree",
   str "suffix-arrays-the-string-search-specialist",
   str "merkle-trees-the-fingerprint-of-data",
   str "copy-on-write",
   str "delta-compression",
   str "lockless-data-structures-concurrency-without-waiting",
   str "caching",
   str "batching",
   str "compression",
   str "columnar-storage",
   str "indexing-the-ultimate-table-of-contents",
   str "inverted-indexes-the-heart-of-search-engines",
   str "ring-buffers-the-circular-conveyor-belt",
   str "lsm-trees-making-writes-fast-again",
   str "partitioning-the-art-of-slicing-data",
   str "sharding-slicing-the-monolith",
   str "spatial-indexing-finding-your-place-in-the-world",
   str "time-series-databases-the-pulse-of-data",
   str "consistent-hashing",
   str "append-only-logs",
   str "crdts-agreeing-without-asking",
   str "event-sourcing",
   str "in-memory-storage-the-need-for-speed",
   str "materialized-views-the-pre-calculated-answer",
   str "probabilistic-data-structures-good-enough-is-perfect",
   str "replication-dont-put-all-your-eggs-in-one-basket",
   str "write-ahead-logging-wal-durability-without-delay"]

/-- `get_tutorial_order`: curated list, then tutorials found on disk that are
not in it, in filesystem-enumeration order. -/
def get_tutorial_order (existing : List Str) : List Str :=
  addMissing tutorial_order_curated existing

/-- The order in which tutorials are actually processed: both passes skip a
listed tutorial whose directory does not exist
(`if not tutorial_path.exists(): continue`). -/
def effectiveOrder (existing : List Str) : List Str :=
  (get_tutorial_order existing).filter (fun u => u ∈ existing)

theorem mem_addMissing (x : Str) : ∀ (ts order : List Str),
    x ∈ addMissing order ts ↔ x ∈ order ∨ x ∈ ts := by
  intro ts
  induction ts with
  | nil => intro order; simp [addMissing]
  | cons t rest ih =>
    intro order
    simp only [addMissing]
    by_cases h : t ∈ order
    · rw [if_pos h, ih]
      constructor
      · rintro (h' | h')
        · exact Or.inl h'
        · exact Or.inr (by simp [h'])
      · rintro (h' | h')
        · exact Or.inl h'
        · rcases List.mem_cons.mp h' with h'' | h''
          · exact Or.inl (h'' ▸ h)
          · exact Or.inr h''
    · rw [if_neg h, ih]
      simp only [List.mem_append, List.mem_singleton, List.mem_cons]
      tauto

theorem nodup_addMissing : ∀ (ts order : List Str), order.Nodup →
    (addMissing order ts).Nodup := by
  intro ts
  induction ts with
  | nil => intro order h; exact h
  | cons t rest ih =>
    intro order h
    simp only [addMissing]
    by_cases ht : t ∈ order
    · rw [if_pos ht]
      exact ih order h
    · rw [if_neg ht]
      refine ih _ ?_
      simp [List.nodup_append, h, ht]

theorem addMissing_eq_append : ∀ (ts order : List Str), ts.Nodup →
    addMissing order ts = order ++ ts.filter (fun x => x ∉ order) := by
  intro ts
  induction ts with
  | nil => intro order _; simp [addMissing]
  | cons t rest ih =>
    intro order hN
    simp only [List.nodup_cons] at hN
    simp only [addMissing]
    by_cases h : t ∈ order
    · rw [if_pos h, ih order hN.2]
      congr 1
      rw [List.filter_cons]
      simp [h]
    · rw [if_neg h, ih _ hN.2]
      have hd : (t :: rest).filter (fun x => decide (x ∉ order))
          = t :: rest.filter (fun x => decide (x ∉ order)) := by
        rw [List.filter_cons]
        simp [h]
      rw [hd]
      rw [List.append_assoc]
      simp only [List.singleton_append]
      congr 1
      congr 1
      refine List.filter_congr ?_
      intro x hx
      have hxt : x ≠ t := fun he => hN.1 (he ▸ hx)
      simp [List.mem_append, hxt]

theorem count_nodup_one (l : List Str) (u : Str) (hN : l.Nodup) (hu : u ∈ l) :
    l.count u = 1 := by
  induction l with
  | nil => simp at hu
  | cons a as ih =>
    rw [List.count_cons]
    simp only [List.nodup_cons] at hN
    rcases List.mem_cons.mp hu with h | h
    · subst h
      have h0 : as.count u = 0 := by
        rw [List.count_eq_zero]
        exact hN.1
      simp [h0]
    · have hne : a ≠ u := fun he => hN.1 (he ▸ h)
      rw [ih hN.2 h]
      simp [hne]

theorem nodup_curated : tutorial_order_curated.Nodup := by decide

/-- C8: the processing order over tutorial Units is total and deterministic:
curated Units found on disk first (curated entries missing from disk are
skipped, relative order preserved), then every remaining on-disk Unit exactly
once, in filesystem-enumeration order. -/
theorem corpus_orderer_total_deterministic (existing : List Str) (hN : existing.Nodup) :
    effectiveOrder existing
      = tutorial_order_curated.filter (fun u => u ∈ existing)
        ++ existing.filter (fun u => u ∉ tutorial_order_curated)
    ∧ (∀ u ∈ tutorial_order_curated, u ∉ existing → u ∉ effectiveOrder existing)
    ∧ (∀ u ∈ existing, List.count u (effectiveOrder existing) = 1) := by
  have hchar : effectiveOrder existing
      = tutorial_order_curated.filter (fun u => u ∈ existing)
        ++ existing.filter (fun u => u ∉ tutorial_order_curated) := by
    unfold effectiveOrder get_tutorial_order
    rw [addMissing_eq_append existing _ hN]
    rw [List.filter_append]
    congr 1
    refine List.filter_eq_self.mpr ?_
    intro x hx
    rw [List.mem_filter] at hx
    simpa using hx.1
  refine ⟨hchar, ?_, ?_⟩
  · intro u _ hne
    rw [hchar]
    simp only [List.mem_append, List.mem_filter]
    rintro (⟨_, h⟩ | ⟨h, _⟩)
    · exact hne (by simpa using h)
    · exact hne h
  · intro u hu
    apply count_nodup_one
    · exact (nodup_addMissing existing _ nodup_curated).filter _
    · unfold effectiveOrder
      rw [List.mem_filter]
      refine ⟨?_, by simpa using hu⟩
      unfold get_tutorial_order
      rw [mem_addMissing]
      exact Or.inr hu

/-- Witness for C8 with one uncurated Unit on disk and one curated Unit. -/
theorem corpus_orderer_witness :
    ([str "zzz-extra", str "caching"] : List Str).Nodup
    ∧ (∀ u ∈ ([str "zzz-extra", str "caching"] : List Str),
        List.count u (effectiveOrder [str "zzz-extra", str "caching"]) = 1) :=
  ⟨by decide, (corpus_orderer_total_deterministic _ (by decide)).2.2⟩

/-! ### Link Rewriter: `preprocess_markdown_content` -/

/-- Path of a Document, relative to the input directory: the corpus root
`README.md`, or `tutorials/<u>/<f>`.  Component-wise modelling of the
`pathlib.Path` strings used as `file_to_anchor` keys (unit and file names
coming from the filesystem contain no `/`, so this is faithful). -/
inductive DocPath where
  | root : DocPath
  | unitDoc : Str → Str → DocPath
deriving DecidableEq

/-- Data of a match of `tutorials/([^/\)]+)/?`: the captured group and
whether the optional trailing `/` was consumed. -/
structure TutMatch where
  group1 : Str
  slash : Bool
deriving DecidableEq

/-- Characters admitted by the class `[^/\)]`. -/
def tutGroupChar (c : Char) : Bool := !(c = '/' || c = ')')

/-- Match `tutorials/([^/\)]+)/?` at the start of `s` (greedy group, then the
optional slash if the next character is one). -/
def matchTutorial (s : Str) : Option TutMatch :=
  if (str "tutorials/").isPrefixOf s then
    let t := s.drop 10
    let g := t.takeWhile tutGroupChar
    if g = [] then none
    else
      match t.dropWhile tutGroupChar with
      | '/' :: _ => some ⟨g, true⟩
      | _ => some ⟨g, false⟩
  else none

/-- Length of the whole match (group 0). -/
def tutMatchLen (m : TutMatch) : Nat := 10 + m.group1.length + (if m.slash then 1 else 0)

/-- The matched text (group 0). -/
def tutMatchedSpan (m : TutMatch) : Str :=
  str "tutorials/" ++ m.group1 ++ (if m.slash then ['/'] else [])

/-- `replace_tutorial_link`: `#<anchor>` when the unit is mapped, the whole
match unchanged otherwise. -/
def tutReplacement (tutMap : List (Str × Str)) (m : TutMatch) : Str :=
  match alookup m.group1 tutMap with
  | some anchor => '#' :: anchor
  | none => tutMatchedSpan m

/-- `re.sub(r'tutorials/([^/\)]+)/?', replace_tutorial_link, content)`:
left-to-right scan replacing each leftmost non-overlapping match.  Fuel-based
structural recursion (the scan consumes at least one character per step, so
fuel = length is exact). -/
def subTutorialGo (tutMap : List (Str × Str)) : Nat → Str → Str
  | 0, rest => rest
  | _ + 1, [] => []
  | k + 1, c :: cs =>
    match matchTutorial (c :: cs) with
    | some m => tutReplacement tutMap m ++ subTutorialGo tutMap k ((c :: cs).drop (tutMatchLen m))
    | none => c :: subTutorialGo tutMap k cs

def subTutorial (tutMap : List (Str × Str)) (content : Str) : Str :=
  subTutorialGo tutMap content.length content

/-- Data of a match of `\[([^\]]+)\]\(([^)]+\.md)\)`. -/
structure MdMatch where
  linkText : Str
  mdName : Str
deriving DecidableEq

/-- Characters admitted by the class `[^\]]`. -/
def mdTextChar (c : Char) : Bool := !(c = ']')

/-- Characters admitted by the class `[^)]`. -/
def mdNameChar (c : Char) : Bool := !(c = ')')

/-- Match `\[([^\]]+)\]\(([^)]+\.md)\)` at the start of `s`.  The greedy run
after `(` must itself end in `.md` and be followed by `)` (backtracking
cannot shorten it, since `.md` contains no `)`). -/
def matchMdLink (s : Str) : Option MdMatch :=
  match s with
  | c :: t =>
    if c = '[' then
      let g1 := t.takeWhile mdTextChar
      if g1 = [] then none
      else
        match t.dropWhile mdTextChar with
        | b :: p :: u =>
          if b = ']' ∧ p = '(' then
            let g2 := u.takeWhile mdNameChar
            if 4 ≤ g2.length ∧ (str ".md").isSuffixOf g2 then
              match u.dropWhile mdNameChar with
              | e :: _ => if e = ')' then some ⟨g1, g2⟩ else none
              | _ => none
            else none
          else none
        | _ => none
    else none
  | _ => none

def mdMatchLen (m : MdMatch) : Nat := m.linkText.length + m.mdName.length + 4

def mdMatchedSpan (m : MdMatch) : Str :=
  '[' :: m.linkText ++ (']' :: '(' :: m.mdName) ++ [')']

/-- Python `s.replace(pat, '')`: delete every left-to-right non-overlapping
occurrence of `pat` (fuel-based scan, fuel = length). -/
def removeAllGo (pat : Str) : Nat → Str → Str
  | 0, rest => rest
  | _ + 1, [] => []
  | k + 1, c :: cs =>
    if pat.isPrefixOf (c :: cs) then removeAllGo pat k ((c :: cs).drop pat.length)
    else c :: removeAllGo pat k cs

def removeAll (pat s : Str) : Str := removeAllGo pat s.length s

/-- `replace_md_link` for a source file in unit `u`: resolve
`file_path.parent / md_filename` in the file map; on a miss, derive the
anchor from the filename with every `.md` removed. -/
def mdReplacement (fileMap : List (DocPath × Str)) (u : Str) (m : MdMatch) : Str :=
  let anchor := match alookup (DocPath.unitDoc u m.mdName) fileMap with
    | some a => a
    | none => create_pandoc_heading_id (removeAll (str ".md") m.mdName)
  '[' :: m.linkText ++ (']' :: '(' :: '#' :: anchor) ++ [')']

/-- `re.sub(r'\[([^\]]+)\]\(([^)]+\.md)\)', replace_md_link, content)`. -/
def subMdLinkGo (fileMap : List (DocPath × Str)) (u : Str) : Nat → Str → Str
  | 0, rest => rest
  | _ + 1, [] => []
  | k + 1, c :: cs =>
    match matchMdLink (c :: cs) with
    | some m => mdReplacement fileMap u m ++ subMdLinkGo fileMap u k ((c :: cs).drop (mdMatchLen m))
    | none => c :: subMdLinkGo fileMap u k cs

def subMdLink (fileMap : List (DocPath × Str)) (u : Str) (content : Str) : Str :=
  subMdLinkGo fileMap u content.length content

/-- `preprocess_markdown_content(content, file_path)`: rewrite directory-style
unit references, then, only when `'tutorials/' in str(file_path)` (i.e. for
unit documents; the input directory name is assumed not to contain
`tutorials/`), rewrite links to sibling `.md` files. -/
def preprocess_markdown_content (tutMap : List (Str × Str))
    (fileMap : List (DocPath × Str)) (content : Str) (file_path : DocPath) : Str :=
  let content1 := subTutorial tutMap content
  match file_path with
  | DocPath.root => content1
  | DocPath.unitDoc u _ => subMdLink fileMap u content1

/-! ### Scanner lemmas -/

theorem takeWhile_append_cons (p : Char → Bool) :
    ∀ xs : Str, ∀ (y : Char) (ys : Str), (∀ c ∈ xs, p c = true) → p y = false →
    (xs ++ y :: ys).takeWhile p = xs ∧ (xs ++ y :: ys).dropWhile p = y :: ys := by
  intro xs
  induction xs with
  | nil =>
    intro y ys _ hy
    simp [List.takeWhile_cons, List.dropWhile_cons, hy]
  | cons a as ih =>
    intro y ys hall hy
    have ha : p a = true := hall a (by simp)
    obtain ⟨h1, h2⟩ := ih y ys (fun c hc => hall c (by simp [hc])) hy
    constructor
    · simp only [List.cons_append, List.takeWhile_cons, ha, if_true, h1]
    · simp only [List.cons_append, List.dropWhile_cons, ha, if_true, h2]

theorem tutMatchLen_pos (m : TutMatch) : 1 ≤ tutMatchLen m := by
  unfold tutMatchLen
  omega

theorem subTutorialGo_fuel (tutMap : List (Str × Str)) :
    ∀ k k' (s : Str), s.length ≤ k → s.length ≤ k' →
    subTutorialGo tutMap k s = subTutorialGo tutMap k' s := by
  intro k
  induction k with
  | zero =>
    intro k' s hk _
    have : s = [] := List.length_eq_zero.mp (by omega)
    subst this
    cases k' <;> rfl
  | succ k ih =>
    intro k' s hk hk'
    cases s with
    | nil => cases k' <;> rfl
    | cons c cs =>
      cases k' with
      | zero => simp at hk'
      | succ j =>
        cases hm : matchTutorial (c :: cs) with
        | some m =>
          have hpos := tutMatchLen_pos m
          have hd : ((c :: cs).drop (tutMatchLen m)).length ≤ cs.length := by
            rw [List.length_drop]
            simp only [List.length_cons]
            omega
          simp only [List.length_cons] at hk hk'
          simp only [subTutorialGo, hm]
          congr 1
          exact ih _ _ (by omega) (by omega)
        | none =>
          simp only [List.length_cons] at hk hk'
          simp only [subTutorialGo, hm]
          congr 1
          exact ih _ _ (by omega) (by omega)

theorem matchTutorial_nil : matchTutorial [] = none := by decide

theorem subTutorial_nil (tutMap : List (Str × Str)) : subTutorial tutMap [] = [] := rfl

theorem subTutorial_cons_match (tutMap : List (Str × Str)) (s : Str) (m : TutMatch)
    (hm : matchTutorial s = some m) :
    subTutorial tutMap s
      = tutReplacement tutMap m ++ subTutorial tutMap (s.drop (tutMatchLen m)) := by
  cases s with
  | nil => rw [matchTutorial_nil] at hm; cases hm
  | cons c cs =>
    show subTutorialGo tutMap (cs.length + 1) (c :: cs) = _
    simp only [subTutorialGo, hm]
    congr 1
    refine subTutorialGo_fuel tutMap cs.length _ _ ?_ le_rfl
    have hpos := tutMatchLen_pos m
    rw [List.length_drop]
    simp only [List.length_cons]
    omega

theorem subTutorial_cons_none (tutMap : List (Str × Str)) (c : Char) (cs : Str)
    (hm : matchTutorial (c :: cs) = none) :
    subTutorial tutMap (c :: cs) = c :: subTutorial tutMap cs := by
  show subTutorialGo tutMap (cs.length + 1) (c :: cs) = _
  simp only [subTutorialGo, hm]
  rfl

/-- Is there a directory-style match anywhere in `s`? -/
def hasTutMatch (s : Str) : Bool := s.tails.any (fun t => (matchTutorial t).isSome)

theorem subTutorial_id (tutMap : List (Str × Str)) :
    ∀ s : Str, hasTutMatch s = false → subTutorial tutMap s = s := by
  intro s
  induction s with
  | nil => intro _; rfl
  | cons c cs ih =>
    intro h
    unfold hasTutMatch at h
    rw [List.tails_cons, List.any_cons] at h
    simp only [Bool.or_eq_false_iff] at h
    have hm : matchTutorial (c :: cs) = none := by
      cases hmm : matchTutorial (c :: cs) with
      | none => rfl
      | some m => rw [hmm] at h; simp at h
    rw [subTutorial_cons_none tutMap c cs hm]
    exact congrArg (c :: ·) (ih h.2)

theorem matchTutorial_at (u rest : Str) (hne : u ≠ []) (hs : '/' ∉ u) (hp : ')' ∉ u) :
    matchTutorial (str "tutorials/" ++ u ++ '/' :: rest) = some ⟨u, true⟩ := by
  have hall : ∀ c ∈ u, tutGroupChar c = true := by
    intro c hc
    unfold tutGroupChar
    have h1 : c ≠ '/' := fun he => hs (he ▸ hc)
    have h2 : c ≠ ')' := fun he => hp (he ▸ hc)
    simp [h1, h2]
  have hslash : tutGroupChar '/' = false := by decide
  obtain ⟨htake, hdrop⟩ := takeWhile_append_cons tutGroupChar u '/' rest hall hslash
  have hpre : (str "tutorials/").isPrefixOf (str "tutorials/" ++ u ++ '/' :: rest) = true := by
    rw [List.isPrefixOf_iff_prefix]
    exact ⟨u ++ '/' :: rest, by simp⟩
  unfold matchTutorial
  rw [hpre]
  simp only [if_true]
  have hdrop10 : (str "tutorials/" ++ u ++ '/' :: rest).drop 10 = u ++ '/' :: rest := by
    rw [List.append_assoc]
    exact List.drop_left' (by decide)
  rw [hdrop10, htake, hdrop]
  simp [hne]

/-- C6 (counterexample): a directory-style reference with trailing segments,
`tutorials/caching/extra`, is not wholly replaced: only `tutorials/caching/`
becomes `#caching` and the trailing segment survives. -/
theorem dir_link_trailing_counterexample :
    subTutorial [(str "caching", str "caching")] (str "tutorials/caching/extra")
      = str "#cachingextra"
    ∧ subTutorial [(str "caching", str "caching")] (str "tutorials/caching/extra")
      ≠ str "#caching" := by
  constructor
  · decide
  · decide

/-- C6 (amended): for a directory-style reference `tutorials/<unit>/...`, when
the unit is mapped only the matched span `tutorials/<unit>/` is replaced by
`#<anchor>` and the trailing segments stay; when it is unmapped the reference
is left byte-for-byte unchanged and no error is raised. -/
theorem dir_link_rewrite (tutMap : List (Str × Str)) (u rest a : Str)
    (hne : u ≠ []) (hs : '/' ∉ u) (hp : ')' ∉ u) :
    (alookup u tutMap = some a →
      subTutorial tutMap (str "tutorials/" ++ u ++ '/' :: rest)
        = '#' :: a ++ subTutorial tutMap rest)
    ∧ (alookup u tutMap = none →
      subTutorial tutMap (str "tutorials/" ++ u ++ '/' :: rest)
        = str "tutorials/" ++ u ++ '/' :: subTutorial tutMap rest) := by
  have hm := matchTutorial_at u rest hne hs hp
  have hstep := subTutorial_cons_match tutMap _ _ hm
  have hdropm : (str "tutorials/" ++ u ++ '/' :: rest).drop (tutMatchLen ⟨u, true⟩) = rest := by
    have hlen : tutMatchLen ⟨u, true⟩ = ((str "tutorials/" ++ u) ++ ['/']).length := by
      unfold tutMatchLen
      rw [List.length_append, List.length_append]
      rw [show (str "tutorials/").length = 10 from by decide]
      simp only [List.length_cons, List.length_nil, if_true]
    rw [hlen]
    rw [show str "tutorials/" ++ u ++ '/' :: rest = ((str "tutorials/" ++ u) ++ ['/']) ++ rest
      from by simp]
    exact List.drop_left _ _
  rw [hdropm] at hstep
  constructor
  · intro hsome
    rw [hstep]
    unfold tutReplacement
    simp only [hsome]
  · intro hnone
    rw [hstep]
    unfold tutReplacement
    simp only [hnone]
    unfold tutMatchedSpan
    simp

/-- Witness for C6 at the mapped unit `caching`. -/
theorem dir_link_rewrite_witness :
    subTutorial [(str "caching", str "caching")]
        (str "tutorials/" ++ str "caching" ++ '/' :: str "")
      = '#' :: str "caching" ++ subTutorial [(str "caching", str "caching")] (str "") :=
  (dir_link_rewrite [(str "caching", str "caching")] (str "caching") (str "") (str "caching")
    (by decide) (by decide) (by decide)).1 (by decide)

theorem matchTutorial_eq (s : Str) :
    matchTutorial s =
      if (str "tutorials/").isPrefixOf s then
        if (s.drop 10).takeWhile tutGroupChar = [] then none
        else match (s.drop 10).dropWhile tutGroupChar with
          | '/' :: _ => some ⟨(s.drop 10).takeWhile tutGroupChar, true⟩
          | _ => some ⟨(s.drop 10).takeWhile tutGroupChar, false⟩
      else none := rfl

theorem matchTutorial_span (s : Str) (m : TutMatch) (hm : matchTutorial s = some m) :
    s = tutMatchedSpan m ++ s.drop (tutMatchLen m) := by
  rw [matchTutorial_eq] at hm
  by_cases hpre : (str "tutorials/").isPrefixOf s
  case neg =>
    rw [if_neg (by simpa using hpre)] at hm
    cases hm
  rw [if_pos hpre] at hm
  obtain ⟨t, ht⟩ := List.isPrefixOf_iff_prefix.mp hpre
  have ht10 : s.drop 10 = t := by
    rw [← ht]
    exact List.drop_left' (by decide)
  rw [ht10] at hm
  by_cases hg : t.takeWhile tutGroupChar = []
  case pos =>
    rw [if_pos hg] at hm
    cases hm
  rw [if_neg hg] at hm
  split at hm
  case _ ds heq =>
    injection hm with hm
    subst hm
    show s = (str "tutorials/" ++ t.takeWhile tutGroupChar ++ ['/'])
      ++ s.drop (10 + (t.takeWhile tutGroupChar).length + 1)
    have ht' : t.takeWhile tutGroupChar ++ '/' :: ds = t := by
      rw [← heq]
      exact List.takeWhile_append_dropWhile tutGroupChar t
    have hdecomp : s = ((str "tutorials/" ++ t.takeWhile tutGroupChar) ++ ['/']) ++ ds := by
      rw [← ht]
      conv_lhs => rw [← ht']
      simp
    have hdrop : s.drop (10 + (t.takeWhile tutGroupChar).length + 1) = ds := by
      rw [hdecomp]
      refine List.drop_left' ?_
      rw [List.length_append, List.length_append,
        show (str "tutorials/").length = 10 from by decide]
      simp
    rw [hdrop, hdecomp]
  case _ hne' =>
    injection hm with hm
    subst hm
    show s = (str "tutorials/" ++ t.takeWhile tutGroupChar ++ ([] : List Char))
      ++ s.drop (10 + (t.takeWhile tutGroupChar).length + 0)
    have hdecomp : s = (str "tutorials/" ++ t.takeWhile tutGroupChar)
        ++ t.dropWhile tutGroupChar := by
      rw [← ht]
      conv_lhs => rw [← List.takeWhile_append_dropWhile tutGroupChar t]
      simp
    have hdrop : s.drop (10 + (t.takeWhile tutGroupChar).length + 0)
        = t.dropWhile tutGroupChar := by
      rw [hdecomp]
      refine List.drop_left' ?_
      rw [List.length_append, show (str "tutorials/").length = 10 from by decide]
      simp
    rw [hdrop, hdecomp]
    simp

theorem mdMatchLen_pos (m : MdMatch) : 1 ≤ mdMatchLen m := by
  unfold mdMatchLen
  omega

theorem subMdLinkGo_fuel (fileMap : List (DocPath × Str)) (u : Str) :
    ∀ k k' (s : Str), s.length ≤ k → s.length ≤ k' →
    subMdLinkGo fileMap u k s = subMdLinkGo fileMap u k' s := by
  intro k
  induction k with
  | zero =>
    intro k' s hk _
    have : s = [] := List.length_eq_zero.mp (by omega)
    subst this
    cases k' <;> rfl
  | succ k ih =>
    intro k' s hk hk'
    cases s with
    | nil => cases k' <;> rfl
    | cons c cs =>
      cases k' with
      | zero => simp at hk'
      | succ j =>
        cases hm : matchMdLink (c :: cs) with
        | some m =>
          have hpos := mdMatchLen_pos m
          simp only [List.length_cons] at hk hk'
          simp only [subMdLinkGo, hm]
          congr 1
          refine ih _ _ ?_ ?_ <;>
            · rw [List.length_drop]
              simp only [List.length_cons]
              omega
        | none =>
          simp only [List.length_cons] at hk hk'
          simp only [subMdLinkGo, hm]
          congr 1
          exact ih _ _ (by omega) (by omega)

theorem matchMdLink_nil : matchMdLink [] = none := rfl

theorem subMdLink_nil (fileMap : List (DocPath × Str)) (u : Str) :
    subMdLink fileMap u [] = [] := rfl

theorem subMdLink_cons_match (fileMap : List (DocPath × Str)) (u : Str) (s : Str) (m : MdMatch)
    (hm : matchMdLink s = some m) :
    subMdLink fileMap u s
      = mdReplacement fileMap u m ++ subMdLink fileMap u (s.drop (mdMatchLen m)) := by
  cases s with
  | nil => rw [matchMdLink_nil] at hm; cases hm
  | cons c cs =>
    show subMdLinkGo fileMap u (cs.length + 1) (c :: cs) = _
    simp only [subMdLinkGo, hm]
    congr 1
    refine subMdLinkGo_fuel fileMap u cs.length _ _ ?_ le_rfl
    have hpos := mdMatchLen_pos m
    rw [List.length_drop]
    simp only [List.length_cons]
    omega

theorem subMdLink_cons_none (fileMap : List (DocPath × Str)) (u : Str) (c : Char) (cs : Str)
    (hm : matchMdLink (c :: cs) = none) :
    subMdLink fileMap u (c :: cs) = c :: subMdLink fileMap u cs := by
  show subMdLinkGo fileMap u (cs.length + 1) (c :: cs) = _
  simp only [subMdLinkGo, hm]
  rfl

/-- Is there a sibling-`.md`-link match anywhere in `s`? -/
def hasMdMatch (s : Str) : Bool := s.tails.any (fun t => (matchMdLink t).isSome)

theorem subMdLink_id (fileMap : List (DocPath × Str)) (u : Str) :
    ∀ s : Str, hasMdMatch s = false → subMdLink fileMap u s = s := by
  intro s
  induction s with
  | nil => intro _; rfl
  | cons c cs ih =>
    intro h
    unfold hasMdMatch at h
    rw [List.tails_cons, List.any_cons] at h
    simp only [Bool.or_eq_false_iff] at h
    have hm : matchMdLink (c :: cs) = none := by
      cases hmm : matchMdLink (c :: cs) with
      | none => rfl
      | some m => rw [hmm] at h; simp at h
    rw [subMdLink_cons_none fileMap u c cs hm]
    exact congrArg (c :: ·) (ih h.2)

theorem matchMdLink_span (s : Str) (m : MdMatch) (hm : matchMdLink s = some m) :
    s = mdMatchedSpan m ++ s.drop (mdMatchLen m) := by
  cases s with
  | nil => cases hm
  | cons c t =>
    simp only [matchMdLink] at hm
    by_cases hc : c = '['
    case neg => rw [if_neg hc] at hm; cases hm
    subst hc
    rw [if_pos rfl] at hm
    by_cases hg1 : t.takeWhile mdTextChar = []
    case pos => rw [if_pos hg1] at hm; cases hm
    rw [if_neg hg1] at hm
    split at hm
    case _ b p u heq =>
      by_cases hbp : b = ']' ∧ p = '('
      case neg => rw [if_neg hbp] at hm; cases hm
      obtain ⟨hb, hp⟩ := hbp
      subst hb
      subst hp
      rw [if_pos ⟨rfl, rfl⟩] at hm
      by_cases hg2 : 4 ≤ (u.takeWhile mdNameChar).length
          ∧ (str ".md").isSuffixOf (u.takeWhile mdNameChar)
      case neg => rw [if_neg hg2] at hm; cases hm
      rw [if_pos hg2] at hm
      split at hm
      case _ e rest heq2 =>
        by_cases he : e = ')'
        case neg => rw [if_neg he] at hm; cases hm
        subst he
        rw [if_pos rfl] at hm
        injection hm with hm
        subst hm
        show '[' :: t
          = ('[' :: t.takeWhile mdTextChar
              ++ (']' :: '(' :: u.takeWhile mdNameChar) ++ [')'])
            ++ ('[' :: t).drop ((t.takeWhile mdTextChar).length
              + (u.takeWhile mdNameChar).length + 4)
        have hu : u.takeWhile mdNameChar ++ ')' :: rest = u := by
          rw [← heq2]
          exact List.takeWhile_append_dropWhile mdNameChar u
        have ht : t.takeWhile mdTextChar ++ ']' :: '(' :: u = t := by
          rw [← heq]
          exact List.takeWhile_append_dropWhile mdTextChar t
        have hdecomp : '[' :: t
            = ('[' :: t.takeWhile mdTextChar
                ++ (']' :: '(' :: u.takeWhile mdNameChar) ++ [')']) ++ rest := by
          conv_lhs => rw [← ht, ← hu]
          simp
        have hdrop : ('[' :: t).drop ((t.takeWhile mdTextChar).length
            + (u.takeWhile mdNameChar).length + 4) = rest := by
          rw [hdecomp]
          refine List.drop_left' ?_
          simp only [List.length_append, List.length_cons, List.length_nil]
          omega
        rw [hdrop, hdecomp]
      case _ hne2 => cases hm
    case _ hne1 => cases hm

/-- A block of a directory-style substitution: either one character copied
verbatim, or exactly one full match rewritten as `replace_tutorial_link`
specifies. -/
def TutBlockOk (tutMap : List (Str × Str)) (b : Str × Str) : Prop :=
  (b.2 = b.1 ∧ b.1.length = 1)
  ∨ (∃ m : TutMatch, b.1 = tutMatchedSpan m ∧ b.2 = tutReplacement tutMap m)

/-- A block of the `.md`-link substitution. -/
def MdBlockOk (fileMap : List (DocPath × Str)) (u : Str) (b : Str × Str) : Prop :=
  (b.2 = b.1 ∧ b.1.length = 1)
  ∨ (∃ m : MdMatch, b.1 = mdMatchedSpan m ∧ b.2 = mdReplacement fileMap u m)

theorem subTutorial_blocks (tutMap : List (Str × Str)) :
    ∀ (n : Nat) (s : Str), s.length ≤ n →
    ∃ blocks : List (Str × Str),
      s = (blocks.map Prod.fst).flatten
      ∧ subTutorial tutMap s = (blocks.map Prod.snd).flatten
      ∧ ∀ b ∈ blocks, TutBlockOk tutMap b := by
  intro n
  induction n with
  | zero =>
    intro s hs
    have : s = [] := List.length_eq_zero.mp (by omega)
    subst this
    exact ⟨[], by simp, by simp [subTutorial_nil], by simp⟩
  | succ n ih =>
    intro s hs
    cases s with
    | nil => exact ⟨[], by simp, by simp [subTutorial_nil], by simp⟩
    | cons c cs =>
      cases hm : matchTutorial (c :: cs) with
      | some m =>
        have hspan := matchTutorial_span _ _ hm
        have hpos := tutMatchLen_pos m
        have hlen : ((c :: cs).drop (tutMatchLen m)).length ≤ n := by
          rw [List.length_drop]
          simp only [List.length_cons] at hs ⊢
          omega
        obtain ⟨bs, h1, h2, h3⟩ := ih _ hlen
        refine ⟨(tutMatchedSpan m, tutReplacement tutMap m) :: bs, ?_, ?_, ?_⟩
        · simp only [List.map_cons, List.flatten_cons]
          rw [← h1]
          exact hspan
        · rw [subTutorial_cons_match tutMap _ _ hm]
          simp only [List.map_cons, List.flatten_cons]
          rw [← h2]
        · intro b hb
          rcases List.mem_cons.mp hb with h | h
          · subst h
            exact Or.inr ⟨m, rfl, rfl⟩
          · exact h3 b h
      | none =>
        obtain ⟨bs, h1, h2, h3⟩ := ih cs (by simp only [List.length_cons] at hs; omega)
        refine ⟨([c], [c]) :: bs, ?_, ?_, ?_⟩
        · simp only [List.map_cons, List.flatten_cons, List.singleton_append]
          rw [← h1]
        · rw [subTutorial_cons_none tutMap c cs hm]
          simp only [List.map_cons, List.flatten_cons, List.singleton_append]
          rw [← h2]
        · intro b hb
          rcases List.mem_cons.mp hb with h | h
          · subst h
            exact Or.inl ⟨rfl, rfl⟩
          · exact h3 b h

theorem subMdLink_blocks (fileMap : List (DocPath × Str)) (u : Str) :
    ∀ (n : Nat) (s : Str), s.length ≤ n →
    ∃ blocks : List (Str × Str),
      s = (blocks.map Prod.fst).flatten
      ∧ subMdLink fileMap u s = (blocks.map Prod.snd).flatten
      ∧ ∀ b ∈ blocks, MdBlockOk fileMap u b := by
  intro n
  induction n with
  | zero =>
    intro s hs
    have : s = [] := List.length_eq_zero.mp (by omega)
    subst this
    exact ⟨[], by simp, by simp [subMdLink_nil], by simp⟩
  | succ n ih =>
    intro s hs
    cases s with
    | nil => exact ⟨[], by simp, by simp [subMdLink_nil], by simp⟩
    | cons c cs =>
      cases hm : matchMdLink (c :: cs) with
      | some m =>
        have hspan := matchMdLink_span _ _ hm
        have hpos := mdMatchLen_pos m
        have hlen : ((c :: cs).drop (mdMatchLen m)).length ≤ n := by
          rw [List.length_drop]
          simp only [List.length_cons] at hs ⊢
          omega
        obtain ⟨bs, h1, h2, h3⟩ := ih _ hlen
        refine ⟨(mdMatchedSpan m, mdReplacement fileMap u m) :: bs, ?_, ?_, ?_⟩
        · simp only [List.map_cons, List.flatten_cons]
          rw [← h1]
          exact hspan
        · rw [subMdLink_cons_match fileMap u _ _ hm]
          simp only [List.map_cons, List.flatten_cons]
          rw [← h2]
        · intro b hb
          rcases List.mem_cons.mp hb with h | h
          · subst h
            exact Or.inr ⟨m, rfl, rfl⟩
          · exact h3 b h
      | none =>
        obtain ⟨bs, h1, h2, h3⟩ := ih cs (by simp only [List.length_cons] at hs; omega)
        refine ⟨([c], [c]) :: bs, ?_, ?_, ?_⟩
        · simp only [List.map_cons, List.flatten_cons, List.singleton_append]
          rw [← h1]
        · rw [subMdLink_cons_none fileMap u c cs hm]
          simp only [List.map_cons, List.flatten_cons, List.singleton_append]
          rw [← h2]
        · intro b hb
          rcases List.mem_cons.mp hb with h | h
          · subst h
            exact Or.inl ⟨rfl, rfl⟩
          · exact h3 b h

/-- C2: the Link Rewriter is a pure text transformation.  Each substitution
pass decomposes its input into blocks that are either single characters
copied byte-for-byte or whole link-shape matches rewritten as specified —
so everything outside the two rewritten link shapes (including whitespace)
survives verbatim; in particular a content with no directory-style match and
no `.md`-link match (e.g. prose mentioning a bare unit path) is returned
entirely unchanged, for every source path. -/
theorem link_rewriter_preserves_nonlink_content :
    (∀ (tutMap : List (Str × Str)) (content : Str),
      ∃ blocks : List (Str × Str),
        content = (blocks.map Prod.fst).flatten
        ∧ subTutorial tutMap content = (blocks.map Prod.snd).flatten
        ∧ ∀ b ∈ blocks, TutBlockOk tutMap b)
    ∧ (∀ (fileMap : List (DocPath × Str)) (u : Str) (content : Str),
      ∃ blocks : List (Str × Str),
        content = (blocks.map Prod.fst).flatten
        ∧ subMdLink fileMap u content = (blocks.map Prod.snd).flatten
        ∧ ∀ b ∈ blocks, MdBlockOk fileMap u b)
    ∧ (∀ (tutMap : List (Str × Str)) (fileMap : List (DocPath × Str))
        (content : Str) (p : DocPath),
        hasTutMatch content = false → hasMdMatch content = false →
        preprocess_markdown_content tutMap fileMap content p = content) := by
  refine ⟨?_, ?_, ?_⟩
  · intro tutMap content
    exact subTutorial_blocks tutMap content.length content le_rfl
  · intro fileMap u content
    exact subMdLink_blocks fileMap u content.length content le_rfl
  · intro tutMap fileMap content p h1 h2
    unfold preprocess_markdown_content
    rw [subTutorial_id tutMap content h1]
    cases p with
    | root => rfl
    | unitDoc u f => exact subMdLink_id fileMap u content h2

/-- Witness for C2: prose mentioning a bare unit path is left unchanged. -/
theorem link_rewriter_preserves_witness :
    hasTutMatch (str "see caching/ for details") = false
    ∧ hasMdMatch (str "see caching/ for details") = false
    ∧ preprocess_markdown_content [(str "caching", str "caching")] []
        (str "see caching/ for details") DocPath.root
      = str "see caching/ for details" :=
  ⟨by decide, by decide,
    link_rewriter_preserves_nonlink_content.2.2 [(str "caching", str "caching")] []
      (str "see caching/ for details") DocPath.root (by decide) (by decide)⟩

theorem matchMdLink_at (text name rest : Str)
    (hT : text ≠ []) (hTc : ']' ∉ text) (hNc : ')' ∉ name)
    (hlen4 : 4 ≤ name.length) (hsuf : (str ".md").isSuffixOf name = true) :
    matchMdLink ('[' :: (text ++ ']' :: '(' :: (name ++ ')' :: rest)))
      = some ⟨text, name⟩ := by
  have hallT : ∀ c ∈ text, mdTextChar c = true := by
    intro c hc
    unfold mdTextChar
    have : c ≠ ']' := fun he => hTc (he ▸ hc)
    simp [this]
  have hallN : ∀ c ∈ name, mdNameChar c = true := by
    intro c hc
    unfold mdNameChar
    have : c ≠ ')' := fun he => hNc (he ▸ hc)
    simp [this]
  obtain ⟨htake1, hdrop1⟩ :=
    takeWhile_append_cons mdTextChar text ']' ('(' :: (name ++ ')' :: rest)) hallT (by decide)
  obtain ⟨htake2, hdrop2⟩ := takeWhile_append_cons mdNameChar name ')' rest hallN (by decide)
  simp only [matchMdLink]
  rw [if_pos trivial, htake1, if_neg hT, hdrop1]
  split
  case _ b p u heq =>
    injection heq with hb heq
    injection heq with hp heq
    subst hb
    subst hp
    subst heq
    rw [if_pos ⟨rfl, rfl⟩, htake2]
    rw [if_pos ⟨hlen4, hsuf⟩]
    rw [hdrop2]
    split
    case _ e tail heq2 =>
      injection heq2 with he _
      subst he
      rw [if_pos rfl]
    case _ hne2 => exact (hne2 ')' rest rfl).elim
  case _ hne =>
    exact (hne ']' '(' (name ++ ')' :: rest) rfl).elim

/-- C4 (counterexample): the `.md`-link rewrite is skipped for the corpus
root README-equivalent (its path does not contain `tutorials/`), so a sibling
link in the root document is left unchanged instead of being rewritten to
the filename-derived fallback anchor `#b`. -/
theorem md_link_root_counterexample :
    preprocess_markdown_content [] [] (str "[a](b.md)") DocPath.root = str "[a](b.md)"
    ∧ preprocess_markdown_content [] [] (str "[a](b.md)") DocPath.root ≠ str "[a](#b)" := by
  constructor
  · decide
  · decide

/-- C4 (amended): for Documents inside a unit (path contains `tutorials/`),
a markdown link to a sibling `.md` file is resolved against the source
file's directory and looked up in the Document→anchor map; on a miss the
anchor is derived from the filename with every `.md` occurrence removed.
The corpus root README-equivalent is not rewritten. -/
theorem md_link_resolution (tutMap : List (Str × Str)) (fileMap : List (DocPath × Str))
    (u f text name a : Str)
    (hT : text ≠ []) (hTc : ']' ∉ text) (hNc : ')' ∉ name)
    (hlen4 : 4 ≤ name.length) (hsuf : (str ".md").isSuffixOf name = true)
    (hnoTut : hasTutMatch ('[' :: (text ++ ']' :: '(' :: (name ++ ')' :: []))) = false) :
    (alookup (DocPath.unitDoc u name) fileMap = some a →
      preprocess_markdown_content tutMap fileMap
          ('[' :: (text ++ ']' :: '(' :: (name ++ ')' :: []))) (DocPath.unitDoc u f)
        = '[' :: (text ++ ']' :: '(' :: '#' :: (a ++ ')' :: [])))
    ∧ (alookup (DocPath.unitDoc u name) fileMap = none →
      preprocess_markdown_content tutMap fileMap
          ('[' :: (text ++ ']' :: '(' :: (name ++ ')' :: []))) (DocPath.unitDoc u f)
        = '[' :: (text ++ ']' :: '(' :: '#' ::
            (create_pandoc_heading_id (removeAll (str ".md") name) ++ ')' :: []))) := by
  have hmain : preprocess_markdown_content tutMap fileMap
      ('[' :: (text ++ ']' :: '(' :: (name ++ ')' :: []))) (DocPath.unitDoc u f)
      = mdReplacement fileMap u ⟨text, name⟩ := by
    unfold preprocess_markdown_content
    rw [subTutorial_id tutMap _ hnoTut]
    show subMdLink fileMap u ('[' :: (text ++ ']' :: '(' :: (name ++ ')' :: []))) = _
    rw [subMdLink_cons_match fileMap u _ _ (matchMdLink_at text name [] hT hTc hNc hlen4 hsuf)]
    have hdropall : ('[' :: (text ++ ']' :: '(' :: (name ++ ')' :: []))).drop
        (mdMatchLen ⟨text, name⟩) = [] := by
      refine List.drop_eq_nil_of_le ?_
      unfold mdMatchLen
      simp only [List.length_cons, List.length_append, List.length_nil]
      omega
    rw [hdropall, subMdLink_nil, List.append_nil]
  constructor
  · intro hsome
    rw [hmain]
    unfold mdReplacement
    simp only [hsome]
    simp
  · intro hnone
    rw [hmain]
    unfold mdReplacement
    simp only [hnone]
    simp

/-- Witness for C4 at the unmapped sibling link `[a](b.md)` in unit `u`. -/
theorem md_link_resolution_witness :
    preprocess_markdown_content [] [] ('[' :: (str "a" ++ ']' :: '(' :: (str "b.md" ++ ')' :: [])))
        (DocPath.unitDoc (str "u") (str "f.md"))
      = '[' :: (str "a" ++ ']' :: '(' :: '#' ::
          (create_pandoc_heading_id (removeAll (str ".md") (str "b.md")) ++ ')' :: [])) :=
  (md_link_resolution [] [] (str "u") (str "f.md") (str "a") (str "b.md") (str "")
    (by decide) (by decide) (by decide) (by decide) (by decide) (by decide)).2 (by decide)

/-! ### Assembler: data model and the two passes -/

/-- The curated per-unit file order of `collect_and_preprocess_markdown_files`. -/
def file_order_std : List Str :=
  [str "01-concepts-01-the-core-problem.md",
   str "01-concepts-02-the-guiding-philosophy.md",
   str "01-concepts-03-key-abstractions.md",
   str "02-guides-01-getting-started.md",
   str "02-guides-02-essential-patterns.md",
   str "03-deep-dive-01-complexity-analysis.md",
   str "03-deep-dive-02-data-structure-design.md",
   str "04-python-implementation.md",
   str "05-rust-implementation.md",
   str "06-go-implementation.md",
   str "07-cpp-implementation.md",
   str "04-rust-implementation.md",
   str "04-sql-examples.md"]

/-- Per-unit document order: curated names first, then remaining on-disk
`.md` files in filesystem order. -/
def unitFileOrder (names : List Str) : List Str := addMissing file_order_std names

/-- A tutorial directory on disk: optional `README.md` content, and the other
`.md` files (name, content) in filesystem-enumeration order (`README.md`
itself is excluded by the code's listing filter). -/
structure UnitDir where
  readme : Option Str
  files : List (Str × Str)
deriving DecidableEq

/-- The filesystem tree the Assembler reads: the corpus root `README.md`
and the tutorial directories in filesystem-enumeration order. -/
structure Corpus where
  rootReadme : Option Str
  units : List (Str × UnitDir)
deriving DecidableEq

/-- `re.search(r'^# (.+)$', content, re.MULTILINE)`: the text of the first
line of the form `# <nonempty>`. -/
def firstHeading (content : Str) : Option Str :=
  (List.splitOn '\n' content).findSome? (fun l =>
    match l with
    | '#' :: ' ' :: rest => if rest = [] then none else some rest
    | _ => none)

/-- Anchor recorded for a non-README unit file: first-heading anchor, or the
filename-derived fallback. -/
def anchorOfFile (filename content : Str) : Str :=
  match firstHeading content with
  | some t => create_pandoc_heading_id t
  | none => create_pandoc_heading_id (removeAll (str ".md") filename)

/-- Pass 1, README handling of one tutorial: when the README exists and has a
first level-1 heading, record its anchor in both maps; otherwise record
nothing. -/
def pass1ReadmeStep (u : Str) (dir : UnitDir)
    (ms : List (Str × Str) × List (DocPath × Str)) :
    List (Str × Str) × List (DocPath × Str) :=
  match dir.readme with
  | some rc =>
    match firstHeading rc with
    | some t =>
      let a := create_pandoc_heading_id t
      (dictInsert ms.1 u a, dictInsert ms.2 (DocPath.unitDoc u (str "README.md")) a)
    | none => ms
  | none => ms

/-- Pass 1, loop body over the per-unit file order: existing files record
their anchor in the file map only. -/
def pass1FileStep (u : Str) (dir : UnitDir)
    (acc : List (Str × Str) × List (DocPath × Str)) (fn : Str) :
    List (Str × Str) × List (DocPath × Str) :=
  match alookup fn dir.files with
  | some content => (acc.1, dictInsert acc.2 (DocPath.unitDoc u fn) (anchorOfFile fn content))
  | none => acc

/-- Pass 1 processing of one existing tutorial directory. -/
def pass1Unit (u : Str) (dir : UnitDir)
    (ms : List (Str × Str) × List (DocPath × Str)) :
    List (Str × Str) × List (DocPath × Str) :=
  (unitFileOrder (dir.files.map Prod.fst)).foldl (pass1FileStep u dir)
    (pass1ReadmeStep u dir ms)

/-- The tutorials actually processed: `get_tutorial_order` filtered by
directory existence, each with its directory. -/
def processedUnits (c : Corpus) : List (Str × UnitDir) :=
  (get_tutorial_order (c.units.map Prod.fst)).filterMap (fun u =>
    (alookup u c.units).map (fun d => (u, d)))

/-- Pass 1 (index build): `tutorial_to_anchor` and `file_to_anchor`. -/
def pass1 (c : Corpus) : List (Str × Str) × List (DocPath × Str) :=
  (processedUnits c).foldl (fun ms ud => pass1Unit ud.1 ud.2 ms) ([], [])

/-- One staged output file of pass 2. -/
structure StagedFile where
  name : Str
  source : DocPath
  content : Str
deriving DecidableEq

/-- Pass 2 (staging): the root README first, then for every processed unit its
README (staged as `<unit>-README.md`) and its other files in per-unit order
(staged as `<unit>-<filename>`), each rewritten by the Link Rewriter. -/
def pass2 (c : Corpus) : List StagedFile :=
  let ms := pass1 c
  (match c.rootReadme with
   | some rc => [⟨str "README.md", DocPath.root,
       preprocess_markdown_content ms.1 ms.2 rc DocPath.root⟩]
   | none => []) ++
  (processedUnits c).flatMap (fun ud =>
    (match ud.2.readme with
     | some rc => [⟨ud.1 ++ '-' :: str "README.md", DocPath.unitDoc ud.1 (str "README.md"),
         preprocess_markdown_content ms.1 ms.2 rc (DocPath.unitDoc ud.1 (str "README.md"))⟩]
     | none => []) ++
    (unitFileOrder (ud.2.files.map Prod.fst)).filterMap (fun fn =>
      (alookup fn ud.2.files).map (fun content =>
        ⟨ud.1 ++ '-' :: fn, DocPath.unitDoc ud.1 fn,
          preprocess_markdown_content ms.1 ms.2 content (DocPath.unitDoc ud.1 fn)⟩)))

/-- Well-formedness guaranteed by any real filesystem read: distinct directory
names, distinct file names inside a directory, and `README.md` excluded from
the per-unit listing (the code filters it out). -/
def CorpusWF (c : Corpus) : Prop :=
  (c.units.map Prod.fst).Nodup
  ∧ ∀ ud ∈ c.units, (ud.2.files.map Prod.fst).Nodup
      ∧ str "README.md" ∉ ud.2.files.map Prod.fst

/-- What pass 1 contributes to `tutorial_to_anchor` for one unit. -/
def unitTutContrib (u : Str) (dir : UnitDir) : List (Str × Str) :=
  match dir.readme with
  | some rc =>
    match firstHeading rc with
    | some t => [(u, create_pandoc_heading_id t)]
    | none => []
  | none => []

/-- What pass 1 contributes to `file_to_anchor` for one unit. -/
def unitFileContrib (u : Str) (dir : UnitDir) : List (DocPath × Str) :=
  (match dir.readme with
   | some rc =>
     match firstHeading rc with
     | some t => [(DocPath.unitDoc u (str "README.md"), create_pandoc_heading_id t)]
     | none => []
   | none => []) ++
  (unitFileOrder (dir.files.map Prod.fst)).filterMap (fun fn =>
    (alookup fn dir.files).map (fun content =>
      (DocPath.unitDoc u fn, anchorOfFile fn content)))

/-- The Documents present on disk. -/
def discoveredDocs (c : Corpus) : List DocPath :=
  (match c.rootReadme with | some _ => [DocPath.root] | none => []) ++
  c.units.flatMap (fun ud =>
    (match ud.2.readme with | some _ => [DocPath.unitDoc ud.1 (str "README.md")] | none => []) ++
    ud.2.files.map (fun fc => DocPath.unitDoc ud.1 fc.1))

/-- No unit name extended with `-` is a prefix of another unit name (this is
what actually prevents staged-name collisions across units). -/
def HyphenFree (c : Corpus) : Prop :=
  ∀ u1 ∈ c.units.map Prod.fst, ∀ u2 ∈ c.units.map Prod.fst,
    u1 ≠ u2 → ¬ (u1 ++ ['-']) <+: u2

theorem nodup_file_order_std : file_order_std.Nodup := by decide

theorem option_none_orElse {ν : Type} (f : Unit → Option ν) : (none : Option ν).orElse f = f () := rfl

theorem pass1Unit_files (u : Str) (dir : UnitDir) :
    ∀ (fl : List Str) (acc : List (Str × Str) × List (DocPath × Str)),
    (∀ fn ∈ fl, alookup (DocPath.unitDoc u fn) acc.2 = none) →
    fl.Nodup →
    fl.foldl (pass1FileStep u dir) acc
    = (acc.1, acc.2 ++ fl.filterMap (fun fn =>
        (alookup fn dir.files).map (fun content =>
          (DocPath.unitDoc u fn, anchorOfFile fn content)))) := by
  intro fl
  induction fl with
  | nil => intro acc _ _; simp
  | cons fn fl ih =>
    intro acc hfresh hN
    simp only [List.nodup_cons] at hN
    rw [List.foldl_cons, List.filterMap_cons]
    cases hlk : alookup fn dir.files with
    | none =>
      simp only [hlk, Option.map_none']
      rw [show pass1FileStep u dir acc fn = acc from by simp [pass1FileStep, hlk]]
      exact ih acc (fun f hf => hfresh f (by simp [hf])) hN.2
    | some content =>
      simp only [hlk, Option.map_some']
      rw [show pass1FileStep u dir acc fn
          = (acc.1, acc.2 ++ [(DocPath.unitDoc u fn, anchorOfFile fn content)]) from by
        simp only [pass1FileStep, hlk]
        rw [dictInsert_of_fresh _ _ _ (hfresh fn (by simp))]]
      rw [ih (acc.1, acc.2 ++ [(DocPath.unitDoc u fn, anchorOfFile fn content)]) ?_ hN.2]
      · simp [List.append_assoc]
      · intro f hf
        show alookup (DocPath.unitDoc u f)
          (acc.2 ++ [(DocPath.unitDoc u fn, anchorOfFile fn content)]) = none
        rw [alookup_append, hfresh f (by simp [hf]), option_none_orElse]
        have hne : DocPath.unitDoc u f ≠ DocPath.unitDoc u fn := by
          intro he
          injection he with _ he2
          exact hN.1 (he2 ▸ hf)
        simp [alookup, hne]

theorem unitFileContrib_keys (u : Str) (dir : UnitDir) :
    ∀ p ∈ unitFileContrib u dir, ∃ fn, p.1 = DocPath.unitDoc u fn := by
  intro p hp
  unfold unitFileContrib at hp
  rw [List.mem_append] at hp
  rcases hp with hp | hp
  · cases hr : dir.readme with
    | none =>
      simp only [hr] at hp
      exact (List.not_mem_nil p hp).elim
    | some rc =>
      simp only [hr] at hp
      cases hh : firstHeading rc with
      | none =>
        simp only [hh] at hp
        exact (List.not_mem_nil p hp).elim
      | some t =>
        simp only [hh, List.mem_singleton] at hp
        subst hp
        exact ⟨str "README.md", rfl⟩
  · rw [List.mem_filterMap] at hp
    obtain ⟨fn, _, hfn⟩ := hp
    cases hlk : alookup fn dir.files with
    | none => rw [hlk] at hfn; cases hfn
    | some content =>
      rw [hlk] at hfn
      injection hfn with hfn
      subst hfn
      exact ⟨fn, rfl⟩

theorem unitTutContrib_keys (u : Str) (dir : UnitDir) :
    ∀ p ∈ unitTutContrib u dir, p.1 = u := by
  intro p hp
  unfold unitTutContrib at hp
  cases hr : dir.readme with
  | none =>
    simp only [hr] at hp
    exact (List.not_mem_nil p hp).elim
  | some rc =>
    simp only [hr] at hp
    cases hh : firstHeading rc with
    | none =>
      simp only [hh] at hp
      exact (List.not_mem_nil p hp).elim
    | some t =>
      simp only [hh, List.mem_singleton] at hp
      subst hp
      rfl

theorem mem_unitFileOrder_ne_readme (dir : UnitDir)
    (hR : str "README.md" ∉ dir.files.map Prod.fst) :
    ∀ fn ∈ unitFileOrder (dir.files.map Prod.fst), fn ≠ str "README.md" := by
  intro fn hfn
  unfold unitFileOrder at hfn
  rw [mem_addMissing] at hfn
  intro he
  subst he
  rcases hfn with h | h
  · exact absurd h (by decide)
  · exact hR h

theorem pass1ReadmeStep_eq (u : Str) (dir : UnitDir)
    (acc : List (Str × Str) × List (DocPath × Str))
    (hfreshTut : alookup u acc.1 = none)
    (hfreshFiles : ∀ fn, alookup (DocPath.unitDoc u fn) acc.2 = none) :
    pass1ReadmeStep u dir acc
      = (acc.1 ++ unitTutContrib u dir,
         acc.2 ++ (match dir.readme with
           | some rc =>
             match firstHeading rc with
             | some t => [(DocPath.unitDoc u (str "README.md"), create_pandoc_heading_id t)]
             | none => []
           | none => [])) := by
  unfold pass1ReadmeStep unitTutContrib
  cases hr : dir.readme with
  | none => simp
  | some rc =>
    cases hh : firstHeading rc with
    | none => simp [hh]
    | some t =>
      simp only [hh]
      rw [dictInsert_of_fresh _ _ _ hfreshTut, dictInsert_of_fresh _ _ _ (hfreshFiles _)]

theorem pass1Unit_eq (u : Str) (dir : UnitDir)
    (acc : List (Str × Str) × List (DocPath × Str))
    (hN : (dir.files.map Prod.fst).Nodup)
    (hR : str "README.md" ∉ dir.files.map Prod.fst)
    (hfreshTut : alookup u acc.1 = none)
    (hfreshFiles : ∀ fn, alookup (DocPath.unitDoc u fn) acc.2 = none) :
    pass1Unit u dir acc = (acc.1 ++ unitTutContrib u dir, acc.2 ++ unitFileContrib u dir) := by
  have hNfl : (unitFileOrder (dir.files.map Prod.fst)).Nodup :=
    nodup_addMissing _ _ nodup_file_order_std
  unfold pass1Unit
  rw [pass1ReadmeStep_eq u dir acc hfreshTut hfreshFiles]
  rw [pass1Unit_files u dir _ _ ?_ hNfl]
  · unfold unitFileContrib
    rw [List.append_assoc]
  · intro fn hfn
    cases hr : dir.readme with
    | none =>
      simp only [hr]
      rw [List.append_nil]
      exact hfreshFiles fn
    | some rc =>
      simp only [hr]
      cases hh : firstHeading rc with
      | none =>
        simp only [hh]
        rw [List.append_nil]
        exact hfreshFiles fn
      | some t =>
        simp only [hh]
        rw [alookup_append, hfreshFiles fn, option_none_orElse]
        have hne : DocPath.unitDoc u fn ≠ DocPath.unitDoc u (str "README.md") := by
          intro he
          injection he with _ he2
          exact mem_unitFileOrder_ne_readme dir hR fn hfn he2
        simp [alookup, hne]

theorem pass1_foldl :
    ∀ (l : List (Str × UnitDir)) (acc : List (Str × Str) × List (DocPath × Str)),
    (l.map Prod.fst).Nodup →
    (∀ ud ∈ l, (ud.2.files.map Prod.fst).Nodup
      ∧ str "README.md" ∉ ud.2.files.map Prod.fst) →
    (∀ ud ∈ l, alookup ud.1 acc.1 = none) →
    (∀ ud ∈ l, ∀ fn, alookup (DocPath.unitDoc ud.1 fn) acc.2 = none) →
    l.foldl (fun ms ud => pass1Unit ud.1 ud.2 ms) acc
      = (acc.1 ++ l.flatMap (fun ud => unitTutContrib ud.1 ud.2),
         acc.2 ++ l.flatMap (fun ud => unitFileContrib ud.1 ud.2)) := by
  intro l
  induction l with
  | nil => intro acc _ _ _ _; simp
  | cons ud rest ih =>
    intro acc hNames hWF hfT hfF
    simp only [List.map_cons, List.nodup_cons] at hNames
    rw [List.foldl_cons]
    rw [pass1Unit_eq ud.1 ud.2 acc (hWF ud (by simp)).1 (hWF ud (by simp)).2
      (hfT ud (by simp)) (fun fn => hfF ud (by simp) fn)]
    rw [ih _ hNames.2 (fun x hx => hWF x (by simp [hx])) ?_ ?_]
    · simp [List.append_assoc]
    · intro x hx
      have hne : x.1 ≠ ud.1 := by
        intro he
        exact hNames.1 (he ▸ List.mem_map_of_mem Prod.fst hx)
      rw [alookup_append, hfT x (by simp [hx]), option_none_orElse]
      rw [alookup_eq_none]
      intro hmem
      rw [List.mem_map] at hmem
      obtain ⟨q, hq, hq1⟩ := hmem
      exact hne (hq1 ▸ unitTutContrib_keys ud.1 ud.2 q hq)
    · intro x hx fn
      have hne : x.1 ≠ ud.1 := by
        intro he
        exact hNames.1 (he ▸ List.mem_map_of_mem Prod.fst hx)
      rw [alookup_append, hfF x (by simp [hx]) fn, option_none_orElse]
      rw [alookup_eq_none]
      intro hmem
      rw [List.mem_map] at hmem
      obtain ⟨q, hq, hq1⟩ := hmem
      obtain ⟨fn', hfn'⟩ := unitFileContrib_keys ud.1 ud.2 q hq
      rw [hfn'] at hq1
      injection hq1 with h1 _
      exact hne h1.symm

theorem map_fst_processedUnits_sublist (c : Corpus) :
    ((processedUnits c).map Prod.fst).Sublist
      (get_tutorial_order (c.units.map Prod.fst)) := by
  unfold processedUnits
  generalize get_tutorial_order (c.units.map Prod.fst) = l
  induction l with
  | nil => simp
  | cons u l ih =>
    rw [List.filterMap_cons]
    cases hlk : alookup u c.units with
    | none =>
      simp only [Option.map_none']
      exact ih.cons u
    | some d =>
      simp only [Option.map_some', List.map_cons]
      exact ih.cons₂ u

theorem processedUnits_names_nodup (c : Corpus) :
    ((processedUnits c).map Prod.fst).Nodup :=
  (map_fst_processedUnits_sublist c).nodup (nodup_addMissing _ _ nodup_curated)

theorem processedUnits_mem (c : Corpus) :
    ∀ ud ∈ processedUnits c, ud ∈ c.units := by
  intro ud hud
  unfold processedUnits at hud
  rw [List.mem_filterMap] at hud
  obtain ⟨u, _, hu⟩ := hud
  cases hlk : alookup u c.units with
  | none => rw [hlk] at hu; cases hu
  | some d =>
    rw [hlk] at hu
    injection hu with hu
    subst hu
    exact alookup_mem u d c.units hlk

theorem mem_processedUnits (c : Corpus) (hN : (c.units.map Prod.fst).Nodup) :
    ∀ ud ∈ c.units, ud ∈ processedUnits c := by
  intro ud hud
  unfold processedUnits
  rw [List.mem_filterMap]
  refine ⟨ud.1, ?_, ?_⟩
  · unfold get_tutorial_order
    rw [mem_addMissing]
    exact Or.inr (List.mem_map_of_mem Prod.fst hud)
  · rw [mem_alookup ud.1 ud.2 c.units hN hud]
    rfl

/-- C1 (amended): Pass 1 indexes only unit documents.  Its two maps are
exactly the per-unit contributions, in processing order: a unit README with a
first level-1 heading is recorded in both maps; a README without one (or a
missing README) is recorded in neither; every other existing per-unit file is
recorded in the file map only (first-heading anchor, or filename fallback).
The corpus root README-equivalent never receives an entry. -/
theorem pass1_characterization (c : Corpus) (hWF : CorpusWF c) :
    (pass1 c).1 = (processedUnits c).flatMap (fun ud => unitTutContrib ud.1 ud.2)
    ∧ (pass1 c).2 = (processedUnits c).flatMap (fun ud => unitFileContrib ud.1 ud.2)
    ∧ ∀ a, (DocPath.root, a) ∉ (pass1 c).2 := by
  obtain ⟨hNames, hUnits⟩ := hWF
  have hchar := pass1_foldl (processedUnits c) ([], [])
    (processedUnits_names_nodup c)
    (fun ud hud => hUnits ud (processedUnits_mem c ud hud))
    (fun ud _ => rfl) (fun ud _ fn => rfl)
  unfold pass1
  rw [hchar]
  refine ⟨by simp, by simp, ?_⟩
  intro a hmem
  simp only [List.nil_append] at hmem
  rw [List.mem_flatMap] at hmem
  obtain ⟨ud, _, hud⟩ := hmem
  obtain ⟨fn, hfn⟩ := unitFileContrib_keys ud.1 ud.2 _ hud
  cases hfn

/-- Witness for C1's amended characterization at a one-unit corpus. -/
theorem pass1_characterization_witness :
    CorpusWF ⟨some (str "# Root\n"),
      [(str "zunit", ⟨some (str "# Z Unit\n"), [(str "a.md", str "# A\n")]⟩)]⟩
    ∧ (DocPath.root, str "root") ∉
        (pass1 ⟨some (str "# Root\n"),
          [(str "zunit", ⟨some (str "# Z Unit\n"), [(str "a.md", str "# A\n")]⟩)]⟩).2 :=
  ⟨⟨by decide, by decide⟩,
    (pass1_characterization _ ⟨by decide, by decide⟩).2.2 (str "root")⟩

/-- C1 (counterexample): a corpus whose root README exists and has a first
level-1 heading, but pass 1 records nothing at all — the root README gets no
anchor-map entry (and so no document of this corpus does). -/
theorem pass1_root_counterexample :
    (Corpus.mk (some (str "# Hello\n")) []).rootReadme = some (str "# Hello\n")
    ∧ firstHeading (str "# Hello\n") = some (str "Hello")
    ∧ (pass1 ⟨some (str "# Hello\n"), []⟩).1 = []
    ∧ (pass1 ⟨some (str "# Hello\n"), []⟩).2 = [] := by
  refine ⟨rfl, by decide, by decide, by decide⟩

/-! ### Pass 2: staged names and sources -/

/-- Sources staged for one processed unit, in staging order. -/
def srcContrib (u : Str) (dir : UnitDir) : List DocPath :=
  (match dir.readme with | some _ => [DocPath.unitDoc u (str "README.md")] | none => []) ++
  (unitFileOrder (dir.files.map Prod.fst)).filterMap (fun fn =>
    (alookup fn dir.files).map (fun _ => DocPath.unitDoc u fn))

/-- Staged filenames for one processed unit, in staging order. -/
def nameContrib (u : Str) (dir : UnitDir) : List Str :=
  (match dir.readme with | some _ => [u ++ '-' :: str "README.md"] | none => []) ++
  (unitFileOrder (dir.files.map Prod.fst)).filterMap (fun fn =>
    (alookup fn dir.files).map (fun _ => u ++ '-' :: fn))

theorem map_flatMap_pointwise {A B C : Type} :
    ∀ (l : List A) (f : A → List B) (g : B → C) (h : A → List C),
    (∀ a ∈ l, (f a).map g = h a) → (l.flatMap f).map g = l.flatMap h := by
  intro l f g h
  induction l with
  | nil => intro _; rfl
  | cons a as ih =>
    intro hp
    rw [List.flatMap_cons, List.flatMap_cons, List.map_append, hp a (by simp),
      ih (fun x hx => hp x (by simp [hx]))]

theorem map_source_pass2 (c : Corpus) :
    (pass2 c).map StagedFile.source
      = (match c.rootReadme with | some _ => [DocPath.root] | none => []) ++
        (processedUnits c).flatMap (fun ud => srcContrib ud.1 ud.2) := by
  unfold pass2
  rw [List.map_append]
  congr 1
  · cases c.rootReadme <;> rfl
  · refine map_flatMap_pointwise _ _ _ _ ?_
    intro ud _
    rw [List.map_append]
    unfold srcContrib
    congr 1
    · cases ud.2.readme <;> rfl
    · rw [List.map_filterMap]
      refine List.filterMap_congr ?_
      intro fn _
      rw [Option.map_map]
      rfl

theorem map_name_pass2 (c : Corpus) :
    (pass2 c).map StagedFile.name
      = (match c.rootReadme with | some _ => [str "README.md"] | none => []) ++
        (processedUnits c).flatMap (fun ud => nameContrib ud.1 ud.2) := by
  unfold pass2
  rw [List.map_append]
  congr 1
  · cases c.rootReadme <;> rfl
  · refine map_flatMap_pointwise _ _ _ _ ?_
    intro ud _
    rw [List.map_append]
    unfold nameContrib
    congr 1
    · cases ud.2.readme <;> rfl
    · rw [List.map_filterMap]
      refine List.filterMap_congr ?_
      intro fn _
      rw [Option.map_map]
      rfl

theorem hyph_prefix_of_lt (u1 f1 u2 f2 : Str)
    (h : u1 ++ '-' :: f1 = u2 ++ '-' :: f2) (hlt : u1.length < u2.length) :
    (u1 ++ ['-']) <+: u2 := by
  have h' : (u1 ++ ['-']) ++ f1 = (u2 ++ ['-']) ++ f2 := by
    rw [List.append_assoc, List.append_assoc]
    simpa using h
  have htake : ((u1 ++ ['-']) ++ f1).take (u1.length + 1) = u1 ++ ['-'] := by
    rw [List.take_append_of_le_length (by simp)]
    rw [show u1.length + 1 = (u1 ++ ['-']).length from by simp]
    exact List.take_length _
  have htake2 : ((u2 ++ ['-']) ++ f2).take (u1.length + 1) = u2.take (u1.length + 1) := by
    rw [List.take_append_of_le_length
      (by simp only [List.length_append, List.length_cons, List.length_nil]; omega)]
    rw [List.take_append_of_le_length (by omega)]
  rw [h', htake2] at htake
  rw [← htake]
  exact List.take_prefix _ _

theorem staged_name_inj (u1 f1 u2 f2 : Str)
    (h : u1 ++ '-' :: f1 = u2 ++ '-' :: f2)
    (h12 : ¬ (u1 ++ ['-']) <+: u2) (h21 : ¬ (u2 ++ ['-']) <+: u1) :
    u1 = u2 ∧ f1 = f2 := by
  rcases Nat.lt_trichotomy u1.length u2.length with hlt | heq | hgt
  · exact absurd (hyph_prefix_of_lt u1 f1 u2 f2 h hlt) h12
  · obtain ⟨h1, h2⟩ := List.append_inj h heq
    injection h2 with _ h3
    exact ⟨h1, h3⟩
  · exact absurd (hyph_prefix_of_lt u2 f2 u1 f1 h.symm hgt) h21

theorem readme_name_ne (u fn : Str) : str "README.md" ≠ u ++ '-' :: fn := by
  intro h
  have h1 : '-' ∈ u ++ '-' :: fn := by simp
  rw [← h] at h1
  exact absurd h1 (by decide)

theorem nameContrib_shape (u : Str) (dir : UnitDir) :
    ∀ x ∈ nameContrib u dir, ∃ fn, x = u ++ '-' :: fn := by
  intro x hx
  unfold nameContrib at hx
  rw [List.mem_append] at hx
  rcases hx with hx | hx
  · cases hr : dir.readme with
    | none =>
      simp only [hr] at hx
      exact (List.not_mem_nil x hx).elim
    | some rc =>
      simp only [hr, List.mem_singleton] at hx
      exact ⟨str "README.md", hx⟩
  · rw [List.mem_filterMap] at hx
    obtain ⟨fn, _, hfn⟩ := hx
    cases hlk : alookup fn dir.files with
    | none => rw [hlk] at hfn; cases hfn
    | some content =>
      rw [hlk] at hfn
      injection hfn with hfn
      exact ⟨fn, hfn.symm⟩

theorem srcContrib_shape (u : Str) (dir : UnitDir) :
    ∀ x ∈ srcContrib u dir, ∃ fn, x = DocPath.unitDoc u fn := by
  intro x hx
  unfold srcContrib at hx
  rw [List.mem_append] at hx
  rcases hx with hx | hx
  · cases hr : dir.readme with
    | none =>
      simp only [hr] at hx
      exact (List.not_mem_nil x hx).elim
    | some rc =>
      simp only [hr, List.mem_singleton] at hx
      exact ⟨str "README.md", hx⟩
  · rw [List.mem_filterMap] at hx
    obtain ⟨fn, _, hfn⟩ := hx
    cases hlk : alookup fn dir.files with
    | none => rw [hlk] at hfn; cases hfn
    | some content =>
      rw [hlk] at hfn
      injection hfn with hfn
      exact ⟨fn, hfn.symm⟩

theorem alookup_isSome_mem_keys {κ ν : Type} [DecidableEq κ] (k : κ) (m : List (κ × ν))
    (v : ν) (h : alookup k m = some v) : k ∈ m.map Prod.fst := by
  by_contra hk
  rw [← alookup_eq_none k m] at hk
  rw [hk] at h
  cases h

theorem staged_eq_cancel (u a a' : Str) (h : u ++ '-' :: a = u ++ '-' :: a') : a = a' := by
  have h2 := List.append_cancel_left h
  injection h2

theorem nameContrib_nodup (u : Str) (dir : UnitDir)
    (hN : (dir.files.map Prod.fst).Nodup)
    (hR : str "README.md" ∉ dir.files.map Prod.fst) :
    (nameContrib u dir).Nodup := by
  unfold nameContrib
  rw [List.nodup_append]
  refine ⟨?_, ?_, ?_⟩
  · cases dir.readme <;> simp
  · refine List.Nodup.filterMap ?_ (nodup_addMissing _ _ nodup_file_order_std)
    intro a a' b hb hb'
    cases hla : alookup a dir.files with
    | none => rw [hla] at hb; cases hb
    | some ca =>
      rw [hla] at hb
      cases hla' : alookup a' dir.files with
      | none => rw [hla'] at hb'; cases hb'
      | some ca' =>
        rw [hla'] at hb'
        simp only [Option.map_some', Option.mem_def, Option.some.injEq] at hb hb'
        rw [← hb'] at hb
        exact staged_eq_cancel u a a' hb
  · intro x hx hx'
    cases hr : dir.readme with
    | none =>
      simp only [hr] at hx
      exact (List.not_mem_nil x hx).elim
    | some rc =>
      simp only [hr, List.mem_singleton] at hx
      subst hx
      rw [List.mem_filterMap] at hx'
      obtain ⟨fn, hfn, hmap⟩ := hx'
      cases hlk : alookup fn dir.files with
      | none => rw [hlk] at hmap; cases hmap
      | some content =>
        rw [hlk] at hmap
        injection hmap with hmap
        have hfneq := staged_eq_cancel u fn (str "README.md") hmap
        exact hR (hfneq ▸ alookup_isSome_mem_keys fn dir.files content hlk)

theorem srcContrib_nodup (u : Str) (dir : UnitDir)
    (hN : (dir.files.map Prod.fst).Nodup)
    (hR : str "README.md" ∉ dir.files.map Prod.fst) :
    (srcContrib u dir).Nodup := by
  unfold srcContrib
  rw [List.nodup_append]
  refine ⟨?_, ?_, ?_⟩
  · cases dir.readme <;> simp
  · refine List.Nodup.filterMap ?_ (nodup_addMissing _ _ nodup_file_order_std)
    intro a a' b hb hb'
    cases hla : alookup a dir.files with
    | none => rw [hla] at hb; cases hb
    | some ca =>
      rw [hla] at hb
      cases hla' : alookup a' dir.files with
      | none => rw [hla'] at hb'; cases hb'
      | some ca' =>
        rw [hla'] at hb'
        simp only [Option.map_some', Option.mem_def, Option.some.injEq] at hb hb'
        rw [← hb'] at hb
        exact (DocPath.unitDoc.inj hb).2
  · intro x hx hx'
    cases hr : dir.readme with
    | none =>
      simp only [hr] at hx
      exact (List.not_mem_nil x hx).elim
    | some rc =>
      simp only [hr, List.mem_singleton] at hx
      subst hx
      rw [List.mem_filterMap] at hx'
      obtain ⟨fn, hfn, hmap⟩ := hx'
      cases hlk : alookup fn dir.files with
      | none => rw [hlk] at hmap; cases hmap
      | some content =>
        rw [hlk] at hmap
        injection hmap with hmap
        injection hmap with _ hfneq
        exact hR (hfneq ▸ alookup_isSome_mem_keys fn dir.files content hlk)

theorem nodup_flatMap_units {B : Type} (f : Str → UnitDir → List B) :
    ∀ (l : List (Str × UnitDir)),
    (l.map Prod.fst).Nodup →
    (∀ ud ∈ l, (f ud.1 ud.2).Nodup) →
    (∀ ud1 ∈ l, ∀ ud2 ∈ l, ud1.1 ≠ ud2.1 →
      ∀ b ∈ f ud1.1 ud1.2, b ∉ f ud2.1 ud2.2) →
    (l.flatMap (fun ud => f ud.1 ud.2)).Nodup := by
  intro l
  induction l with
  | nil => intro _ _ _; simp
  | cons ud rest ih =>
    intro hNames hNod hD
    simp only [List.map_cons, List.nodup_cons] at hNames
    rw [List.flatMap_cons, List.nodup_append]
    refine ⟨hNod ud (by simp), ?_, ?_⟩
    · exact ih hNames.2 (fun x hx => hNod x (by simp [hx]))
        (fun x hx y hy => hD x (by simp [hx]) y (by simp [hy]))
    · intro x hx hx'
      rw [List.mem_flatMap] at hx'
      obtain ⟨ud2, hud2, hx2⟩ := hx'
      have hne : ud.1 ≠ ud2.1 := by
        intro he
        exact hNames.1 (he ▸ List.mem_map_of_mem Prod.fst hud2)
      exact hD ud (by simp) ud2 (by simp [hud2]) hne x hx hx2

theorem srcContrib_mem_readme (u : Str) (dir : UnitDir) (h : dir.readme.isSome) :
    DocPath.unitDoc u (str "README.md") ∈ srcContrib u dir := by
  unfold srcContrib
  rw [List.mem_append]
  left
  cases hr : dir.readme with
  | none => rw [hr] at h; cases h
  | some rc => simp [hr]

theorem srcContrib_mem_files (u : Str) (dir : UnitDir)
    (hN : (dir.files.map Prod.fst).Nodup) (fn content : Str)
    (hmem : (fn, content) ∈ dir.files) :
    DocPath.unitDoc u fn ∈ srcContrib u dir := by
  unfold srcContrib
  rw [List.mem_append]
  right
  rw [List.mem_filterMap]
  refine ⟨fn, ?_, ?_⟩
  · unfold unitFileOrder
    rw [mem_addMissing]
    exact Or.inr (List.mem_map_of_mem Prod.fst hmem)
  · rw [mem_alookup fn content dir.files hN hmem]
    rfl

theorem srcContrib_mem_inv (u : Str) (dir : UnitDir) :
    ∀ d ∈ srcContrib u dir,
      (d = DocPath.unitDoc u (str "README.md") ∧ dir.readme.isSome)
      ∨ ∃ fc ∈ dir.files, d = DocPath.unitDoc u fc.1 := by
  intro d hd
  unfold srcContrib at hd
  rw [List.mem_append] at hd
  rcases hd with hd | hd
  · cases hr : dir.readme with
    | none =>
      simp only [hr] at hd
      exact (List.not_mem_nil d hd).elim
    | some rc =>
      simp only [hr, List.mem_singleton] at hd
      exact Or.inl ⟨hd, rfl⟩
  · rw [List.mem_filterMap] at hd
    obtain ⟨fn, _, hmap⟩ := hd
    cases hlk : alookup fn dir.files with
    | none => rw [hlk] at hmap; cases hmap
    | some content =>
      rw [hlk] at hmap
      injection hmap with hmap
      exact Or.inr ⟨(fn, content), alookup_mem fn content dir.files hlk, hmap.symm⟩

/-- C3 (amended): with well-formed directory listings and no unit name being
another unit name extended with `-<suffix>`, pass 2 stages exactly one output
file per discovered Document (sources are pairwise distinct and are exactly
the discovered Documents) and no two staged files share a filename. -/
theorem pass2_staging (c : Corpus) (hWF : CorpusWF c) (hHF : HyphenFree c) :
    ((pass2 c).map StagedFile.source).Nodup
    ∧ (∀ d : DocPath, d ∈ (pass2 c).map StagedFile.source ↔ d ∈ discoveredDocs c)
    ∧ ((pass2 c).map StagedFile.name).Nodup := by
  obtain ⟨hNames, hUnits⟩ := hWF
  have hPmem := processedUnits_mem c
  have hPnames := processedUnits_names_nodup c
  have hPname_mem : ∀ ud ∈ processedUnits c, ud.1 ∈ c.units.map Prod.fst :=
    fun ud hud => List.mem_map_of_mem Prod.fst (hPmem ud hud)
  refine ⟨?_, ?_, ?_⟩
  · rw [map_source_pass2]
    rw [List.nodup_append]
    refine ⟨?_, ?_, ?_⟩
    · cases c.rootReadme <;> simp
    · refine nodup_flatMap_units _ _ hPnames ?_ ?_
      · intro ud hud
        exact srcContrib_nodup ud.1 ud.2 (hUnits ud (hPmem ud hud)).1
          (hUnits ud (hPmem ud hud)).2
      · intro ud1 _ ud2 _ hne b hb hb'
        obtain ⟨f1, hf1⟩ := srcContrib_shape ud1.1 ud1.2 b hb
        obtain ⟨f2, hf2⟩ := srcContrib_shape ud2.1 ud2.2 b hb'
        rw [hf1] at hf2
        exact hne (DocPath.unitDoc.inj hf2).1
    · intro x hx hx'
      rw [List.mem_flatMap] at hx'
      obtain ⟨ud, _, hud⟩ := hx'
      obtain ⟨fn, hfn⟩ := srcContrib_shape ud.1 ud.2 x hud
      cases hr : c.rootReadme with
      | none =>
        rw [hr] at hx
        exact (List.not_mem_nil x hx).elim
      | some rc =>
        rw [hr] at hx
        rw [List.mem_singleton] at hx
        rw [hx] at hfn
        cases hfn
  · intro d
    rw [map_source_pass2]
    unfold discoveredDocs
    rw [List.mem_append, List.mem_append]
    constructor
    · rintro (hd | hd)
      · exact Or.inl hd
      · right
        rw [List.mem_flatMap] at hd ⊢
        obtain ⟨ud, hud, hd⟩ := hd
        refine ⟨ud, hPmem ud hud, ?_⟩
        rw [List.mem_append]
        rcases srcContrib_mem_inv ud.1 ud.2 d hd with ⟨hd1, hd2⟩ | ⟨fc, hfc, hd1⟩
        · left
          cases hr : ud.2.readme with
          | none => rw [hr] at hd2; cases hd2
          | some rc => simp [hr, hd1]
        · right
          rw [hd1, List.mem_map]
          exact ⟨fc, hfc, rfl⟩
    · rintro (hd | hd)
      · exact Or.inl hd
      · right
        rw [List.mem_flatMap] at hd ⊢
        obtain ⟨ud, hud, hd⟩ := hd
        refine ⟨ud, mem_processedUnits c hNames ud hud, ?_⟩
        rw [List.mem_append] at hd
        rcases hd with hd | hd
        · cases hr : ud.2.readme with
          | none =>
            rw [hr] at hd
            exact (List.not_mem_nil d hd).elim
          | some rc =>
            rw [hr] at hd
            rw [List.mem_singleton] at hd
            rw [hd]
            exact srcContrib_mem_readme ud.1 ud.2 (by rw [hr]; rfl)
        · rw [List.mem_map] at hd
          obtain ⟨fc, hfc, hd1⟩ := hd
          rw [← hd1]
          exact srcContrib_mem_files ud.1 ud.2 (hUnits ud hud).1 fc.1 fc.2 (by simpa using hfc)
  · rw [map_name_pass2]
    rw [List.nodup_append]
    refine ⟨?_, ?_, ?_⟩
    · cases c.rootReadme <;> simp
    · refine nodup_flatMap_units _ _ hPnames ?_ ?_
      · intro ud hud
        exact nameContrib_nodup ud.1 ud.2 (hUnits ud (hPmem ud hud)).1
          (hUnits ud (hPmem ud hud)).2
      · intro ud1 hud1 ud2 hud2 hne b hb hb'
        obtain ⟨f1, hf1⟩ := nameContrib_shape ud1.1 ud1.2 b hb
        obtain ⟨f2, hf2⟩ := nameContrib_shape ud2.1 ud2.2 b hb'
        rw [hf1] at hf2
        have h12 := hHF ud1.1 (hPname_mem ud1 hud1) ud2.1 (hPname_mem ud2 hud2) hne
        have h21 := hHF ud2.1 (hPname_mem ud2 hud2) ud1.1 (hPname_mem ud1 hud1) (Ne.symm hne)
        exact hne (staged_name_inj ud1.1 f1 ud2.1 f2 hf2 h12 h21).1
    · intro x hx hx'
      rw [List.mem_flatMap] at hx'
      obtain ⟨ud, _, hud⟩ := hx'
      obtain ⟨fn, hfn⟩ := nameContrib_shape ud.1 ud.2 x hud
      cases hr : c.rootReadme with
      | none =>
        rw [hr] at hx
        exact (List.not_mem_nil x hx).elim
      | some rc =>
        rw [hr] at hx
        rw [List.mem_singleton] at hx
        rw [hx] at hfn
        exact readme_name_ne ud.1 fn hfn

/-- The corpus with units `a` and `a-b` whose staged names collide. -/
def collideCorpus : Corpus :=
  ⟨none, [(str "a", ⟨none, [(str "b-c.md", str "x")]⟩),
          (str "a-b", ⟨none, [(str "c.md", str "y")]⟩)]⟩

/-- C3 (counterexample): two distinct source Documents, in distinct units `a`
and `a-b`, are both staged as `a-b-c.md` — the staged filenames collide. -/
theorem pass2_collision_counterexample :
    (pass2 collideCorpus).map StagedFile.name = [str "a-b-c.md", str "a-b-c.md"]
    ∧ (pass2 collideCorpus).map StagedFile.source
      = [DocPath.unitDoc (str "a") (str "b-c.md"), DocPath.unitDoc (str "a-b") (str "c.md")]
    ∧ ¬ ((pass2 collideCorpus).map StagedFile.name).Nodup := by
  refine ⟨by decide, by decide, by decide⟩

/-- Witness for C3 at a one-unit corpus. -/
theorem pass2_staging_witness :
    CorpusWF ⟨none, [(str "za", ⟨none, [(str "x.md", str "y")]⟩)]⟩
    ∧ HyphenFree ⟨none, [(str "za", ⟨none, [(str "x.md", str "y")]⟩)]⟩
    ∧ ((pass2 ⟨none, [(str "za", ⟨none, [(str "x.md", str "y")]⟩)]⟩).map
        StagedFile.name).Nodup := by
  have hhf : HyphenFree ⟨none, [(str "za", ⟨none, [(str "x.md", str "y")]⟩)]⟩ := by
    intro u1 h1 u2 h2 hne
    simp only [List.map_cons, List.map_nil, List.mem_singleton] at h1 h2
    exact absurd (h1.trans h2.symm) hne
  exact ⟨⟨by decide, by decide⟩, hhf,
    (pass2_staging _ ⟨by decide, by decide⟩ hhf).2.2⟩

/-! ### Heading Splitter: `extract_headings.py` -/

/-- Python `str.strip()` (default: whitespace on both ends). -/
def stripWs (s : Str) : Str :=
  ((s.dropWhile isSpaceChar).reverse.dropWhile isSpaceChar).reverse

/-- Python `file.readlines()`: split after every newline, keeping it. -/
def readlinesAux (acc : Str) : Str → List Str
  | [] => if acc = [] then [] else [acc.reverse]
  | c :: cs =>
    if c = '\n' then (acc.reverse ++ ['\n']) :: readlinesAux [] cs
    else readlinesAux (c :: acc) cs

def readlines (s : Str) : List Str := readlinesAux [] s

/-- `extract_title_and_emoji`: delete every `##`, strip; the trailing run of
non-word, non-space characters is the "emoji"; the filename title has that
run removed and is stripped again.  Returns (title, title_without_emoji). -/
def extract_title_and_emoji (heading_line : Str) : Str × Str :=
  let title := stripWs (removeAll (str "##") heading_line)
  let title_without_emoji :=
    stripWs (title.reverse.dropWhile (fun c => !(isWordChar c || isSpaceChar c))).reverse
  (title, title_without_emoji)

/-- `title_to_filename`: keep `[\w\s-]`, collapse `[-\s]+` runs to one `-`,
lowercase, strip edge `-`, append `.md`. -/
def title_to_filename (title : Str) : Str :=
  let f1 := title.filter (fun c => isWordChar c || isSpaceChar c || c = '-')
  let f2 := subRuns (fun c => c = '-' || isSpaceChar c) '-' f1
  stripChar '-' (f2.map Char.toLower) ++ str ".md"

/-- `extract_section_content`: the lines following the heading up to (not
including) the next line starting with `##`, with trailing blank lines
removed. -/
def extract_section_content (rest : List Str) : List Str :=
  let content := rest.takeWhile (fun l => !(str "##").isPrefixOf l)
  (content.reverse.dropWhile (fun l => stripWs l = [])).reverse

/-- The splitter's main loop: one output file `(filename, content)` per input
line starting with `##`, in order; the file holds `# <title>`, a blank line,
then the section body verbatim. -/
def extract_headings : List Str → List (Str × Str)
  | [] => []
  | l :: ls =>
    (if (str "##").isPrefixOf l then
      [(title_to_filename (extract_title_and_emoji l).2,
        str "# " ++ (extract_title_and_emoji l).1 ++ str "\n\n"
          ++ (extract_section_content ls).flatten)]
     else []) ++ extract_headings ls

/-- C5 (counterexample): a line `### B` begins with `##` but not with exactly
a second-level heading marker; the splitter still starts a section there, so
this input with one exactly-second-level heading produces two files. -/
theorem splitter_h3_counterexample :
    (extract_headings (readlines (str "## A\n### B\n"))).length = 2
    ∧ (readlines (str "## A\n### B\n")).countP
        (fun l => (str "##").isPrefixOf l && !((str "###").isPrefixOf l)) = 1 := by
  constructor
  · decide
  · decide

/-- C5 (amended): the splitter starts a section at each line whose prefix is
`##` (including deeper headings such as `###`) and at no other line; bodies
run to the next such line with trailing blanks trimmed; each file is
`# <original title>`, a blank line, and the body.  On the claim's example the
two produced files are exactly as stated. -/
theorem splitter_sections (lines : List Str) :
    (extract_headings lines).length
      = lines.countP (fun l => (str "##").isPrefixOf l)
    ∧ extract_headings (readlines (str "## Foo Bar 🎯\ncontent line\n## Baz\nmore\n"))
      = [(str "foo-bar.md", str "# Foo Bar 🎯\n\ncontent line\n"),
         (str "baz.md", str "# Baz\n\nmore\n")] := by
  constructor
  · induction lines with
    | nil => rfl
    | cons l ls ih =>
      simp only [extract_headings, List.countP_cons]
      by_cases h : (str "##").isPrefixOf l
      · simp [h, ih]
      · simp [h, ih]
  · decide

/-! ### `convert`: failure semantics -/

/-- Result of the `subprocess.run` invocation of the external converter:
completed with an exit code and captured stdout/stderr, or raised. -/
inductive RunResult where
  | completed : Int → Str → Str → RunResult
  | raised : Str → RunResult
deriving DecidableEq

/-- Observable outcome of `PandocEPUBConverter.convert`: returned value,
whether the staging directory and the metadata (title) file still exist
afterwards, and which captured streams were reported. -/
structure ConvertOutcome where
  success : Bool
  stagingExists : Bool
  titleExists : Bool
  reported : Option (Str × Str)
deriving DecidableEq

/-- `convert` control flow: missing pandoc aborts before any file I/O;
otherwise staging and the title file are created and the converter runs
once; on exit 0 the title file is unlinked and staging removed; on non-zero
exit the captured stdout/stderr are printed and `False` returned with no
cleanup; an exception is caught, reported, and `False` returned with no
cleanup. -/
def convert (pandocPresent : Bool) (run : RunResult) : ConvertOutcome :=
  if !pandocPresent then ⟨false, false, false, none⟩
  else
    match run with
    | RunResult.completed code out err =>
      if code = 0 then ⟨true, false, false, none⟩
      else ⟨false, true, true, some (out, err)⟩
    | RunResult.raised _ => ⟨false, true, true, none⟩

/-- C9: on a non-zero exit status `convert` reports the captured stdout and
stderr and returns failure with the staging directory and metadata file left
in place; and those artifacts are removed only when the exit status is zero
(never on failure or exception). -/
theorem convert_failure_semantics (code : Int) (out err : Str) (run : RunResult) :
    (code ≠ 0 →
      convert true (RunResult.completed code out err)
        = ⟨false, true, true, some (out, err)⟩)
    ∧ (convert true (RunResult.completed 0 out err) = ⟨true, false, false, none⟩)
    ∧ (((convert true run).stagingExists = false ∨ (convert true run).titleExists = false) →
        ∃ o e, run = RunResult.completed 0 o e) := by
  refine ⟨?_, ?_, ?_⟩
  · intro h
    unfold convert
    simp [h]
  · rfl
  · intro h
    cases run with
    | completed c o e =>
      by_cases hc : c = 0
      · exact ⟨o, e, by rw [hc]⟩
      · exfalso
        unfold convert at h
        simp [hc] at h
    | raised m =>
      exfalso
      unfold convert at h
      simp at h

/-- Witness for C9 at exit code 1. -/
theorem convert_failure_semantics_witness :
    convert true (RunResult.completed 1 (str "o") (str "e"))
      = ⟨false, true, true, some (str "o", str "e")⟩ :=
  (convert_failure_semantics 1 (str "o") (str "e")
    (RunResult.completed 1 (str "o") (str "e"))).1 (by decide)
